import Mathlib

/-!
Verification of the `jstool` JSON flat-view/edit tool (`src/json-flat-tool/jstool.py`)
and the companion issue-ID helper (`src/local-issue/next-issue-id.py`).

The Python code is shallowly embedded: JSON values become the inductive type
`JVal` (floating-point numbers are modelled as rationals, only their identity
matters to the tool), Python's in-place mutation through the parent reference
returned by `navigate` is modelled as a functional update along the same
segment path, and fallible code returns `Except`.
-/

set_option maxHeartbeats 1000000

namespace JsTool

/-- A JSON value as held in memory by the tool (the result of `json.load`).
Object key order and array order are significant, as in Python dicts/lists. -/
inductive JVal where
  | jnull
  | jbool (b : Bool)
  | jint (n : Int)
  | jnum (q : Rat)
  | jstr (s : String)
  | jobj (fields : List (String × JVal))
  | jarr (elems : List JVal)
  deriving Inhabited

mutual

/-- Structural equality test on JSON values (Python `==` on parsed JSON). -/
def jbeq : JVal → JVal → Bool
  | .jnull, .jnull => true
  | .jbool a, .jbool b => a = b
  | .jint a, .jint b => a = b
  | .jnum a, .jnum b => a = b
  | .jstr a, .jstr b => a = b
  | .jobj a, .jobj b => jbeqFields a b
  | .jarr a, .jarr b => jbeqElems a b
  | _, _ => false

def jbeqFields : List (String × JVal) → List (String × JVal) → Bool
  | [], [] => true
  | (k, v) :: as, (k', v') :: bs => k = k' && jbeq v v' && jbeqFields as bs
  | _, _ => false

def jbeqElems : List JVal → List JVal → Bool
  | [], [] => true
  | a :: as, b :: bs => jbeq a b && jbeqElems as bs
  | _, _ => false

end

/-- Strong induction on the size of a JSON value (used to recurse through the
nested lists inside objects and arrays). -/
theorem JVal.sizeInd (P : JVal → Prop)
    (step : ∀ v, (∀ w, sizeOf w < sizeOf v → P w) → P v) : ∀ v, P v := by
  have H : ∀ n v, sizeOf v ≤ n → P v := by
    intro n
    induction n with
    | zero => intro v hv; exact step v (fun w hw => absurd (Nat.lt_of_lt_of_le hw hv) (by omega))
    | succ n ih => intro v hv; exact step v (fun w hw => ih w (by omega))
  intro v
  exact H (sizeOf v) v (Nat.le_refl _)

theorem sizeOf_lt_of_mem_fields {k : String} {v : JVal} {fields : List (String × JVal)}
    (h : (k, v) ∈ fields) : sizeOf v < sizeOf (JVal.jobj fields) := by
  have h1 : sizeOf (k, v) < sizeOf fields := List.sizeOf_lt_of_mem h
  simp at h1 ⊢
  omega

theorem sizeOf_lt_of_mem_elems {v : JVal} {elems : List JVal}
    (h : v ∈ elems) : sizeOf v < sizeOf (JVal.jarr elems) := by
  have h1 : sizeOf v < sizeOf elems := List.sizeOf_lt_of_mem h
  simp
  omega

theorem jbeq_iff_eq : ∀ a b : JVal, jbeq a b = true ↔ a = b := by
  intro a
  induction a using JVal.sizeInd with
  | step a ih =>
    have fieldsAux : ∀ (as : List (String × JVal)),
        (∀ k v, (k, v) ∈ as → ∀ b, jbeq v b = true ↔ v = b) →
        ∀ bs, jbeqFields as bs = true ↔ as = bs := by
      intro as
      induction as with
      | nil => intro _ bs; cases bs <;> simp [jbeqFields]
      | cons kv rest ihl =>
        intro hmem bs
        obtain ⟨k, v⟩ := kv
        cases bs with
        | nil => simp [jbeqFields]
        | cons kv' bs' =>
          obtain ⟨k', v'⟩ := kv'
          simp only [jbeqFields, Bool.and_eq_true, decide_eq_true_eq]
          rw [hmem k v (by simp), ihl (fun k₀ v₀ h₀ => hmem k₀ v₀ (by simp [h₀]))]
          constructor
          · rintro ⟨⟨h1, h2⟩, h3⟩; simp [h1, h2, h3]
          · intro h; injection h with h1 h2; injection h1 with ha hb; exact ⟨⟨ha, hb⟩, h2⟩
    have elemsAux : ∀ (as : List JVal),
        (∀ v, v ∈ as → ∀ b, jbeq v b = true ↔ v = b) →
        ∀ bs, jbeqElems as bs = true ↔ as = bs := by
      intro as
      induction as with
      | nil => intro _ bs; cases bs <;> simp [jbeqElems]
      | cons v rest ihl =>
        intro hmem bs
        cases bs with
        | nil => simp [jbeqElems]
        | cons v' bs' =>
          simp only [jbeqElems, Bool.and_eq_true]
          rw [hmem v (by simp), ihl (fun v₀ h₀ => hmem v₀ (by simp [h₀]))]
          constructor
          · rintro ⟨h1, h2⟩; simp [h1, h2]
          · intro h; injection h with h1 h2; exact ⟨h1, h2⟩
    intro b
    cases a <;> cases b <;> simp [jbeq]
    case jobj.jobj as bs =>
      exact fieldsAux as
        (fun k v hm b => ih v (sizeOf_lt_of_mem_fields hm) b) bs
    case jarr.jarr as bs =>
      exact elemsAux as
        (fun v hm b => ih v (sizeOf_lt_of_mem_elems hm) b) bs

instance : DecidableEq JVal := fun a b =>
  decidable_of_iff (jbeq a b = true) (jbeq_iff_eq a b)

/-- One step of a parsed path: a dict key or a list index.
`navigate` accepts negative indices, so the index is an `Int`. -/
inductive Seg where
  | key (s : String)
  | idx (i : Int)
  deriving DecidableEq

/-- The Python value stored in the third slot of a flattened row:
`None`, a string (markers "(empty)"/"(null)" are plain strings in the code),
or a primitive value. -/
inductive RowVal where
  | none
  | str (s : String)
  | int (n : Int)
  | num (q : Rat)
  | bool (b : Bool)
  deriving DecidableEq

/-- A flattened row `(path, type_name, value_marker)`. -/
abbrev Row := String × String × RowVal

/-- Errors raised by `navigate`: TypeError / KeyError / IndexError, with the
data carried by the Python messages. -/
inductive NavErr where
  | expectedObject (k : String) (got : String)
  | keyNotFound (k : String)
  | expectedArray (i : Int) (got : String)
  | idxOutOfRange (i : Int) (len : Nat)
  deriving DecidableEq

/-- Errors raised by the edit operations: a navigation error or a ValueError
with a message. -/
inductive Err where
  | nav (e : NavErr)
  | msg (s : String)
  deriving DecidableEq

/-- `get_type_name` (jstool.py:48): boolean is tested before integer. -/
def get_type_name : JVal → String
  | .jnull => "null"
  | .jbool _ => "boolean"
  | .jint _ => "integer"
  | .jnum _ => "number"
  | .jstr _ => "string"
  | .jobj _ => "object"
  | .jarr _ => "array"

/-- Python `type(x).__name__`, as used in `navigate`'s TypeError messages. -/
def pyTypeName : JVal → String
  | .jnull => "NoneType"
  | .jbool _ => "bool"
  | .jint _ => "int"
  | .jnum _ => "float"
  | .jstr _ => "str"
  | .jobj _ => "dict"
  | .jarr _ => "list"

/-- The row value stored for a primitive (`data` itself; JSON null is `None`). -/
def primValue : JVal → RowVal
  | .jnull => .none
  | .jbool b => .bool b
  | .jint n => .int n
  | .jnum q => .num q
  | .jstr s => .str s
  | .jobj _ => .none
  | .jarr _ => .none

/-! ### Decimal rendering of array indices (Python `str(i)` for `i : Nat`) -/

/-- The base-10 digits of `n`, most significant first. -/
def natDigitsN (n : Nat) : List Nat :=
  if h : n < 10 then [n] else natDigitsN (n / 10) ++ [n % 10]
  termination_by n
  decreasing_by
    exact Nat.div_lt_self (by omega) (by omega)

/-- The character for a single decimal digit. -/
def digitChar (d : Nat) : Char := Char.ofNat (48 + d)

/-- Decimal rendering of a natural number (Python `str(i)`). -/
def natRepr (n : Nat) : String := String.mk ((natDigitsN n).map digitChar)

/-! ### Flatten (jstool.py:67) -/

mutual

/-- `flatten` (jstool.py:67): rows `(path, type_name, value_marker)` where the
marker is `None` for a container with children, `"(empty)"` for an empty
container, and the primitive value otherwise. -/
def flatten (data : JVal) (path : String) (rootLevel : Bool) : List Row :=
  match data with
  | .jobj fields =>
      (path, "object", if fields.isEmpty then RowVal.str "(empty)" else RowVal.none)
        :: flattenFields fields path rootLevel
  | .jarr elems =>
      (path, "array", if elems.isEmpty then RowVal.str "(empty)" else RowVal.none)
        :: flattenElems elems path 0
  | v => [(path, get_type_name v, primValue v)]

/-- The loop over `data.items()`: at root level the child path is the bare key,
otherwise `f"{path}.{k}"`. -/
def flattenFields (fields : List (String × JVal)) (path : String) (rootLevel : Bool) :
    List Row :=
  match fields with
  | [] => []
  | (k, v) :: rest =>
      flatten v (if rootLevel then k else path ++ "." ++ k) false
        ++ flattenFields rest path rootLevel

/-- The loop over `enumerate(data)`: the child path is `f"{path}[{i}]"`. -/
def flattenElems (elems : List JVal) (path : String) (i : Nat) : List Row :=
  match elems with
  | [] => []
  | v :: rest =>
      flatten v (path ++ "[" ++ natRepr i ++ "]") false ++ flattenElems rest path (i + 1)

end

/-! ### Structural signature `sig` (jstool.py:92): `re.sub(r'\[\d+\]', '[*]', path)` -/

theorem length_dropWhile_le (p : Char → Bool) (l : List Char) :
    (l.dropWhile p).length ≤ l.length := by
  induction l with
  | nil => simp
  | cons c cs ih =>
    simp only [List.dropWhile]
    cases p c <;> simp <;> omega

/-- One left-to-right pass replacing every non-overlapping match of
`\[\d+\]` by `[*]`, exactly as `re.sub` does: at a `[` followed by a nonempty
digit run and a `]`, emit `[*]` and continue after the `]`. -/
def sigAux : List Char → List Char
  | [] => []
  | c :: rest =>
    if c = '[' ∧ rest.takeWhile Char.isDigit ≠ [] ∧
        (rest.dropWhile Char.isDigit).headD ' ' = ']' then
      '[' :: '*' :: ']' :: sigAux (rest.dropWhile Char.isDigit).tail
    else c :: sigAux rest
  termination_by l => l.length
  decreasing_by
    · have hle : (rest.dropWhile Char.isDigit).length ≤ rest.length :=
        length_dropWhile_le Char.isDigit rest
      have htl : (rest.dropWhile Char.isDigit).tail.length ≤
          (rest.dropWhile Char.isDigit).length := by
        cases rest.dropWhile Char.isDigit <;> simp
      simp
      omega
    · simp

/-- `sig` (jstool.py:92). -/
def sig (path : String) : String := String.mk (sigAux path.data)

/-! ### Null inference (jstool.py:96) -/

/-- First-occurrence association lookup (Python dict lookup). -/
def alookup {α : Type} : List (String × α) → String → Option α
  | [], _ => Option.none
  | (k, v) :: rest, s => if k = s then some v else alookup rest s

/-- The first pass of `infer_nulls`: build the `known` dict, skipping rows
whose value is `None` or `"(empty)"` and rows typed null/object/array;
first occurrence per signature wins. -/
def recordKnown (known : List (String × String)) : List Row → List (String × String)
  | [] => known
  | (path, type_name, value) :: rest =>
    if value = RowVal.none ∨ value = RowVal.str "(empty)" then recordKnown known rest
    else if type_name = "null" ∨ type_name = "object" ∨ type_name = "array" then
      recordKnown known rest
    else if (alookup known (sig path)).isSome then recordKnown known rest
    else recordKnown (known ++ [(sig path, type_name)]) rest

/-- Python `inferred or "unknown"`: `None` and the empty string are falsy. -/
def orUnknown : Option String → String
  | Option.none => "unknown"
  | some t => if t = "" then "unknown" else t

/-- `infer_nulls` (jstool.py:96). -/
def infer_nulls (rows : List Row) : List Row :=
  let known := recordKnown [] rows
  rows.map (fun r =>
    if r.2.1 = "null" ∧ r.2.2 = RowVal.none then
      (r.1, orUnknown (alookup known (sig r.1)), RowVal.str "(null)")
    else r)

/-! ### Schema deduplication (jstool.py:121) -/

/-- Hide actual primitive values, keep `None` and the special markers. -/
def suppressValue (v : RowVal) : RowVal :=
  if v = RowVal.none ∨ v = RowVal.str "(empty)" ∨ v = RowVal.str "(null)" then v
  else RowVal.none

/-- The loop of `schema_rows` with its `seen` set made explicit. -/
def schemaGo (seen : List (String × String)) : List Row → List Row
  | [] => []
  | (path, type_name, value) :: rest =>
    let sp := sig path
    if (sp, type_name) ∈ seen then schemaGo seen rest
    else (sp, type_name, suppressValue value) :: schemaGo ((sp, type_name) :: seen) rest

/-- `schema_rows` (jstool.py:121). -/
def schema_rows (rows : List Row) : List Row := schemaGo [] rows

/-! ### Path parser (jstool.py:297) -/

/-- Python `str.strip()` whitespace (the ASCII cases). -/
def pySpace (c : Char) : Bool :=
  c = ' ' ∨ c = '\t' ∨ c = '\n' ∨ c = '\r' ∨ c = '\x0b' ∨ c = '\x0c'

/-- `path_str.strip()`. -/
def stripWs (l : List Char) : List Char :=
  ((l.dropWhile pySpace).reverse.dropWhile pySpace).reverse

/-- `a.startswith(b)` on character lists. -/
def listStarts : List Char → List Char → Bool
  | [], _ => true
  | _ :: _, [] => false
  | p :: ps, c :: cs => p = c && listStarts ps cs

/-- Value of a run of decimal digits (Python `int(idx_str)`). -/
def digitsVal (l : List Char) : Nat :=
  l.foldl (fun a c => 10 * a + (c.toNat - 48)) 0

/-- After a completed segment, skip a single following `.` if present
(jstool.py:328-329 and 340-341). -/
def skipDot : List Char → List Char
  | '.' :: t => t
  | t => t

theorem skipDot_length_le (l : List Char) : (skipDot l).length ≤ l.length := by
  unfold skipDot
  split
  · simp
  · exact Nat.le_refl _

/-- Not the index terminator `]`. -/
def notRB (ch : Char) : Bool := ch ≠ ']'

/-- Not a key terminator (`.` or `[`). -/
def notDotLB (ch : Char) : Bool := ch ≠ '.' ∧ ch ≠ '['

/-- The tokenizing loop of `parse_path` (jstool.py:318-342): at `[` scan to the
matching `]` and require a nonempty digit run; otherwise read a key up to the
next `.` or `[`; a single `.` after a segment is skipped. -/
def parseSegs : List Char → Except String (List Seg)
  | [] => .ok []
  | c :: rest =>
    if c = '[' then
      -- `s.index(']', i)` raises ValueError when no ']' follows
      if rest.dropWhile notRB = [] then .error "']' not found in path"
      else if rest.takeWhile notRB ≠ [] ∧ (rest.takeWhile notRB).all Char.isDigit then
        match parseSegs (skipDot (rest.dropWhile notRB).tail) with
        | .ok segs => .ok (Seg.idx (digitsVal (rest.takeWhile notRB)) :: segs)
        | .error e => .error e
      else .error "Non-integer index in path"
    else
      if hk : (c :: rest).takeWhile notDotLB = [] then .error "Empty key in path"
      else
        match parseSegs (skipDot ((c :: rest).dropWhile notDotLB)) with
        | .ok segs => .ok (Seg.key (String.mk ((c :: rest).takeWhile notDotLB)) :: segs)
        | .error e => .error e
  termination_by l => l.length
  decreasing_by
    · -- the '[...]' branch: we consumed at least '['
      have hle : (rest.dropWhile notRB).length ≤ rest.length :=
        length_dropWhile_le _ rest
      have htl : (rest.dropWhile notRB).tail.length ≤ (rest.dropWhile notRB).length := by
        cases rest.dropWhile notRB <;> simp
      have hsk := skipDot_length_le (rest.dropWhile notRB).tail
      simp
      omega
    · -- the key branch: the key is nonempty
      have hsplit : ((c :: rest).takeWhile notDotLB) ++ ((c :: rest).dropWhile notDotLB)
            = c :: rest :=
        List.takeWhile_append_dropWhile _ _
      have hlen := congrArg List.length hsplit
      have hk1 : 1 ≤ ((c :: rest).takeWhile notDotLB).length := by
        cases hkk : (c :: rest).takeWhile notDotLB with
        | nil => exact absurd hkk hk
        | cons a as => simp
      have hsk := skipDot_length_le ((c :: rest).dropWhile notDotLB)
      simp only [List.length_append, List.length_cons] at hlen
      simp
      omega

/-- `parse_path` (jstool.py:297): strip, handle the `root` forms, tokenize. -/
def parse_path (path_str : String) : Except String (List Seg) :=
  let s := stripWs path_str.data
  if s = "root".data then .ok []
  else if listStarts "root.".data s then parseSegs (s.drop 5)
  else if listStarts "root[".data s then parseSegs (s.drop 4)
  else parseSegs s

/-! ### Navigator (jstool.py:345) -/

/-- Python list indexing with a (bounds-checked) possibly negative index. -/
def normIdx (i : Int) (n : Nat) : Nat :=
  if i < 0 then ((n : Int) + i).toNat else i.toNat

/-- The loop of `navigate`: `parentKey` holds the current `(parent, key)` pair
(`Option.none` before the first step), `node` the current value. -/
def navGo (parentKey : Option (JVal × Seg)) (node : JVal) :
    List Seg → Except NavErr (Option (JVal × Seg) × JVal)
  | [] => .ok (parentKey, node)
  | seg :: rest =>
    match seg with
    | .key s =>
      match node with
      | .jobj fields =>
        match alookup fields s with
        | some v => navGo (some (node, seg)) v rest
        | Option.none => .error (.keyNotFound s)
      | _ => .error (.expectedObject s (pyTypeName node))
    | .idx i =>
      match node with
      | .jarr xs =>
        if -(xs.length : Int) ≤ i ∧ i < (xs.length : Int) then
          navGo (some (node, seg)) (xs.getD (normIdx i xs.length) JVal.jnull) rest
        else .error (.idxOutOfRange i xs.length)
      | _ => .error (.expectedArray i (pyTypeName node))

/-- `navigate` (jstool.py:345): returns `(parent-and-key, node)`. -/
def navigate (data : JVal) (segments : List Seg) :
    Except NavErr (Option (JVal × Seg) × JVal) :=
  navGo Option.none data segments

/-! ### Edit operations (jstool.py:690-774)

Python mutates the container aliased by `parent` in place; the tree returned by
`json.load` is alias-free, so this is modelled by rebuilding the document along
the same segment path (`modAtPath` / `updateChild`). -/

/-- Replace the value of the (unique) binding of `k`, keeping its position. -/
def mapField (fields : List (String × JVal)) (k : String) (f : JVal → JVal) :
    List (String × JVal) :=
  match fields with
  | [] => []
  | (k', v') :: rest => if k' = k then (k', f v') :: rest else (k', v') :: mapField rest k f

/-- `del parent[key]` for dicts: drop the (unique) binding of `k`. -/
def eraseField (fields : List (String × JVal)) (k : String) : List (String × JVal) :=
  match fields with
  | [] => []
  | (k', v') :: rest => if k' = k then rest else (k', v') :: eraseField rest k

/-- Apply `f` to the element at (already normalized) position `n`. -/
def listModifyNat (f : JVal → JVal) : List JVal → Nat → List JVal
  | [], _ => []
  | x :: xs, 0 => f x :: xs
  | x :: xs, n + 1 => x :: listModifyNat f xs n

/-- `parent.pop(n)` at an already normalized position. -/
def listRemoveNat : List JVal → Nat → List JVal
  | [], _ => []
  | _ :: xs, 0 => xs
  | x :: xs, n + 1 => x :: listRemoveNat xs n

/-- `parent.insert(pos, v)` at an already clamped position. -/
def listInsertNat (v : JVal) : List JVal → Nat → List JVal
  | xs, 0 => v :: xs
  | [], _ + 1 => [v]
  | x :: xs, n + 1 => x :: listInsertNat v xs n

/-- Python `list.insert` position: negative indices count from the end and the
result is clamped into `[0, len]`. -/
def insertPos (i : Int) (n : Nat) : Nat :=
  if i < 0 then (max 0 ((n : Int) + i)).toNat else min i.toNat n

/-- Descend one segment and rewrite the child there (no-op on a mismatch,
which cannot happen after a successful `navigate`). -/
def updateChild (data : JVal) (seg : Seg) (f : JVal → JVal) : JVal :=
  match data, seg with
  | .jobj fields, .key s => .jobj (mapField fields s f)
  | .jarr xs, .idx i => .jarr (listModifyNat f xs (normIdx i xs.length))
  | d, _ => d

/-- Rewrite the node addressed by `pre` with `f`. -/
def modAtPath (data : JVal) (pre : List Seg) (f : JVal → JVal) : JVal :=
  match pre with
  | [] => f data
  | seg :: rest => updateChild data seg (fun c => modAtPath c rest f)

/-- The mutation done by `apply_del`: `del parent[key]` / `parent.pop(key)`. -/
def deleteChild (parent : JVal) (seg : Seg) : JVal :=
  match parent, seg with
  | .jobj fields, .key s => .jobj (eraseField fields s)
  | .jarr xs, .idx i => .jarr (listRemoveNat xs (normIdx i xs.length))
  | d, _ => d

/-- `apply_del` (jstool.py:698). -/
def apply_del (data : JVal) (segments : List Seg) : Except Err JVal :=
  match segments with
  | [] => .error (.msg "Cannot delete root")
  | _ =>
    match navigate data segments with
    | .error e => .error (.nav e)
    | .ok _ => .ok (modAtPath data segments.dropLast
        (fun parent => deleteChild parent (segments.getLastD (Seg.idx 0))))

/-- `apply_before` (jstool.py:709): navigate, require the parent to be a list,
insert at the addressed index. -/
def apply_before (data : JVal) (segments : List Seg) (new_val : JVal) : Except Err JVal :=
  match segments with
  | [] => .error (.msg "Cannot insert before root")
  | _ =>
    match navigate data segments with
    | .error e => .error (.nav e)
    | .ok (parentKey, _) =>
      match parentKey with
      | some (.jarr xs, seg) =>
        .ok (modAtPath data segments.dropLast (fun parent =>
          match parent, seg with
          | .jarr ys, .idx i => .jarr (listInsertNat new_val ys (insertPos i ys.length))
          | p, _ => p))
      | _ => .error (.msg "'before' only works on array elements")

/-! ### Deep merge (jstool.py:759) -/

/-- First-occurrence lookup on object fields (Python `k in result` / `result[k]`). -/
def lookupField (fields : List (String × JVal)) (k : String) : Option JVal :=
  alookup fields k

/-- `result[k] = v` on a dict: replace in place if present, else append. -/
def setField (fields : List (String × JVal)) (k : String) (v : JVal) :
    List (String × JVal) :=
  match fields with
  | [] => [(k, v)]
  | (k', v') :: rest => if k' = k then (k', v) :: rest else (k', v') :: setField rest k v

mutual

/-- `deep_merge` (jstool.py:759): dicts merge key by key, everything else is
replaced by the patch. -/
def deep_merge : JVal → JVal → JVal
  | .jobj bf, .jobj pf => .jobj (mergeFields bf pf)
  | _, patch => patch

/-- The loop `for k, v in patch.items()` of `deep_merge`, acting on `result`. -/
def mergeFields (result : List (String × JVal)) : List (String × JVal) →
    List (String × JVal)
  | [] => result
  | (k, v) :: rest =>
    match lookupField result k with
    | some old => mergeFields (setField result k (deep_merge old v)) rest
    | Option.none => mergeFields (result ++ [(k, v)]) rest

end

/-- `apply_merge` (jstool.py:769): `parent[key] = deep_merge(node, patch)`,
i.e. the node addressed by `segs` is replaced by its merge with the patch. -/
def apply_merge (data : JVal) (segs : List Seg) (patch : JVal) : Except Err JVal :=
  match segs with
  | [] => .ok (deep_merge data patch)
  | _ =>
    match navigate data segs with
    | .error e => .error (.nav e)
    | .ok _ => .ok (modAtPath data segs (fun node => deep_merge node patch))

/-! ### Issue-ID helper (`src/local-issue/next-issue-id.py`)

The filesystem walk is modelled by the two lists of filenames found in the
`open/` and `closed/` subdirectories. -/

/-- `re.match(r"^(\d+)", name)`: the maximal leading digit run, if nonempty. -/
def leadingNum (name : String) : Option Nat :=
  match name.data.takeWhile Char.isDigit with
  | [] => Option.none
  | ds => some (digitsVal ds)

/-- The inner loop of `next_issue_id`: fold the running maximum over one
directory's filenames. -/
def scanMax (acc : Nat) (files : List String) : Nat :=
  files.foldl (fun m name =>
    match leadingNum name with
    | some n => max m n
    | Option.none => m) acc

/-- `f"{max_id + 1:03d}"`: decimal, left-padded with zeros to width 3. -/
def zpad3 (n : Nat) : String :=
  String.mk (List.replicate (3 - (natRepr n).data.length) '0' ++ (natRepr n).data)

/-- `next_issue_id` (next-issue-id.py:21), for a directory whose `open/` and
`closed/` subdirectories hold the given filenames. -/
def next_issue_id (openFiles closedFiles : List String) : String :=
  zpad3 (scanMax (scanMax 0 openFiles) closedFiles + 1)

/-- Is the value a JSON object? (`isinstance(x, dict)`). -/
def isObj : JVal → Bool
  | .jobj _ => true
  | _ => false

/-- The spec's reading of the issue-ID rule: the maximum digit prefix over all
filenames (taken as zero when no filename has one). -/
def maxLeading (files : List String) : Nat :=
  (files.filterMap leadingNum).foldr max 0

/-- The number denoted by a digit list (used to show decimal rendering is
injective). -/
def decDigits (l : List Nat) : Nat := l.foldl (fun a d => 10 * a + d) 0

/-- Keys of one object are pairwise distinct (a Python dict cannot hold
duplicate keys, the embedding's field lists can). -/
def keysFresh : List String → Bool
  | [] => true
  | k :: rest => rest.all (fun k' => k' ≠ k) && keysFresh rest

mutual

/-- Every object key in the document is free of `.` and `[` and each object's
keys are duplicate-free: the condition under which flattened paths can be
parsed apart again. -/
def wellKeyed : JVal → Bool
  | .jobj fields => keysFresh (fields.map Prod.fst) && fieldsWellKeyed fields
  | .jarr xs => elemsWellKeyed xs
  | _ => true

def fieldsWellKeyed : List (String × JVal) → Bool
  | [] => true
  | (k, v) :: rest => k.data.all notDotLB && wellKeyed v && fieldsWellKeyed rest

def elemsWellKeyed : List JVal → Bool
  | [] => true
  | v :: rest => wellKeyed v && elemsWellKeyed rest

end

/-- No root-level object key is literally `root` (such a key's bare path would
collide with the root row's path). -/
def rootSafe : JVal → Bool
  | .jobj fields => (fields.map Prod.fst).all (fun k => k ≠ "root")
  | _ => true

/-- The tail a flattened child path appends to its parent's path: empty, or
starting with `.` (object child) or `[` (array element). -/
def ExtTail (e : List Char) : Prop :=
  e = [] ∨ (∃ t, e = '.' :: t) ∨ (∃ t, e = '[' :: t)

/-- The per-row rewrite of the schema view (spec §4.3): wildcard the indices,
suppress primitive values, keep the special markers. -/
def schemaTransform (r : Row) : Row := (sig r.1, r.2.1, suppressValue r.2.2)

/-- Deduplicate by the `(structural-path, type)` pair, keeping the first
occurrence in the original relative order (spec §4.3, stated directly as a
filter-based recursion). -/
def dedupByKey : List Row → List Row
  | [] => []
  | r :: rest => r :: dedupByKey (rest.filter (fun r' => ¬(r'.1 = r.1 ∧ r'.2.1 = r.2.1)))
  termination_by l => l.length
  decreasing_by
    have := List.length_filter_le
      (fun r' : Row => decide ¬(r'.1 = r.1 ∧ r'.2.1 = r.2.1)) rest
    simp at this ⊢
    omega

/-- The schema reducer as worded by the spec. -/
def schemaRowsSpec (rows : List Row) : List Row := dedupByKey (rows.map schemaTransform)

/-- The claim's recording condition: a non-container, non-null row
(classified by its type name alone). -/
def recordableClaimed (r : Row) : Bool :=
  ¬(r.2.1 = "null" ∨ r.2.1 = "object" ∨ r.2.1 = "array")

/-- The claim's recorded type for a signature: type of the first recordable
row whose structural signature matches. -/
def firstTypeClaimed (rows : List Row) (s : String) : Option String :=
  (rows.find? (fun r => recordableClaimed r && sig r.1 = s)).map (fun r => r.2.1)

/-- Null inference exactly as the claim words it: rewrite each literal-null
row's type to the recorded type for its signature when one exists, else to
`unknown`. -/
def inferNullsClaimed (rows : List Row) : List Row :=
  rows.map (fun r =>
    if r.2.1 = "null" ∧ r.2.2 = RowVal.none then
      (r.1, (firstTypeClaimed rows (sig r.1)).getD "unknown", RowVal.str "(null)")
    else r)

/-- The code's actual recording condition: additionally skips rows whose value
is `None` or the `"(empty)"` marker string. -/
def recordableCode (r : Row) : Bool :=
  ¬(r.2.2 = RowVal.none ∨ r.2.2 = RowVal.str "(empty)") ∧
  ¬(r.2.1 = "null" ∨ r.2.1 = "object" ∨ r.2.1 = "array")

/-- The recorded type under the code's recording condition. -/
def firstTypeCode (rows : List Row) (s : String) : Option String :=
  (rows.find? (fun r => recordableCode r && sig r.1 = s)).map (fun r => r.2.1)

/-- Null inference as the code behaves: the recording pass also skips
marker-valued rows, and an empty-string recorded type falls back to
`unknown` (Python's `inferred or "unknown"`). -/
def inferNullsAmended (rows : List Row) : List Row :=
  rows.map (fun r =>
    if r.2.1 = "null" ∧ r.2.2 = RowVal.none then
      (r.1, orUnknown (firstTypeCode rows (sig r.1)), RowVal.str "(null)")
    else r)

/-! ## Theorems -/

/-! ### Association-list helper lemmas -/

theorem alookup_append {α : Type} (l₁ l₂ : List (String × α)) (s : String) :
    alookup (l₁ ++ l₂) s =
      match alookup l₁ s with
      | some v => some v
      | Option.none => alookup l₂ s := by
  induction l₁ with
  | nil => simp [alookup]
  | cons kv rest ih =>
    obtain ⟨k, v⟩ := kv
    by_cases h : k = s
    · simp [alookup, h]
    · simp [alookup, h, ih]

theorem alookup_eq_none {α : Type} (l : List (String × α)) (s : String) :
    alookup l s = Option.none ↔ s ∉ l.map Prod.fst := by
  induction l with
  | nil => simp [alookup]
  | cons kv rest ih =>
    obtain ⟨k, v⟩ := kv
    by_cases h : k = s
    · simp [alookup, h]
    · have h' : ¬ s = k := fun he => h he.symm
      simp [alookup, h, h', ih]

theorem alookup_setField_self (fields : List (String × JVal)) (k : String) (v : JVal) :
    alookup (setField fields k v) k = some v := by
  induction fields with
  | nil => simp [setField, alookup]
  | cons kv rest ih =>
    obtain ⟨k', v'⟩ := kv
    by_cases h : k' = k
    · simp [setField, h, alookup]
    · simp [setField, h, alookup, ih]

theorem alookup_setField_ne (fields : List (String × JVal)) (k k' : String) (v : JVal)
    (h : k' ≠ k) : alookup (setField fields k v) k' = alookup fields k' := by
  have h' : ¬ k = k' := fun he => h he.symm
  induction fields with
  | nil => simp [setField, alookup, h']
  | cons kv rest ih =>
    obtain ⟨k₀, v₀⟩ := kv
    by_cases h0 : k₀ = k
    · subst h0
      simp [setField, alookup, h']
    · by_cases h1 : k₀ = k'
      · simp [setField, h0, alookup, h1, h]
      · simp [setField, h0, alookup, h1, ih]

theorem keys_setField (fields : List (String × JVal)) (k : String) (v : JVal)
    (h : ¬ alookup fields k = Option.none) :
    (setField fields k v).map Prod.fst = fields.map Prod.fst := by
  induction fields with
  | nil => simp [alookup] at h
  | cons kv rest ih =>
    obtain ⟨k₀, v₀⟩ := kv
    by_cases h0 : k₀ = k
    · simp [setField, h0]
    · simp [alookup, h0] at h
      simp [setField, h0, ih h]

/-! ### C1 support: field-lookup characterization of `mergeFields` -/

theorem mergeFields_alookup : ∀ (pf bf : List (String × JVal)),
    (bf.map Prod.fst).Nodup → (pf.map Prod.fst).Nodup → ∀ k,
    alookup (mergeFields bf pf) k =
      match alookup bf k, alookup pf k with
      | some bv, some pv => some (deep_merge bv pv)
      | some bv, Option.none => some bv
      | Option.none, some pv => some pv
      | Option.none, Option.none => Option.none := by
  intro pf
  induction pf with
  | nil =>
    intro bf _ _ k
    cases h : alookup bf k <;> simp [mergeFields, alookup, h]
  | cons kv rest ih =>
    obtain ⟨k₀, v₀⟩ := kv
    intro bf hb hp k
    have hk₀rest : k₀ ∉ rest.map Prod.fst := by
      simp only [List.map_cons, List.nodup_cons] at hp
      exact hp.1
    have hprest : (rest.map Prod.fst).Nodup := by
      simp only [List.map_cons, List.nodup_cons] at hp
      exact hp.2
    have hrestnone : alookup rest k₀ = Option.none := (alookup_eq_none rest k₀).2 hk₀rest
    simp only [mergeFields, lookupField]
    cases hfind : alookup bf k₀ with
    | some old =>
      have hb' : ((setField bf k₀ (deep_merge old v₀)).map Prod.fst).Nodup := by
        rw [keys_setField bf k₀ _ (by simp [hfind])]
        exact hb
      rw [ih (setField bf k₀ (deep_merge old v₀)) hb' hprest k]
      by_cases hkk : k = k₀
      · subst hkk
        rw [alookup_setField_self, hrestnone, hfind]
        simp [alookup]
      · rw [alookup_setField_ne bf k₀ k _ hkk]
        have hkk' : ¬ k₀ = k := fun he => hkk he.symm
        simp only [alookup, hkk', if_false]
    | none =>
      have hnotin : k₀ ∉ bf.map Prod.fst := (alookup_eq_none bf k₀).1 hfind
      have hb' : ((bf ++ [(k₀, v₀)]).map Prod.fst).Nodup := by
        rw [List.map_append]
        simp only [List.map_cons, List.map_nil]
        rw [List.nodup_append]
        exact ⟨hb, List.nodup_singleton _, by simpa using hnotin⟩
      rw [ih (bf ++ [(k₀, v₀)]) hb' hprest k]
      by_cases hkk : k = k₀
      · subst hkk
        rw [alookup_append, hfind, hrestnone]
        simp [alookup]
      · rw [alookup_append]
        have hkk' : ¬ k₀ = k := fun he => hkk he.symm
        cases hbk : alookup bf k with
        | some bv => simp only [alookup, hkk', if_false]
        | none => simp only [alookup, hkk', if_false]

/-- C1: the deep-merge recursion rule. (1) A non-object base or patch at any
level means the patch replaces the base wholesale (in particular arrays are
replaced, never merged element-wise); (2)-(3) when both are objects the result
merges key by key: a key present in both is recursively merged, a key present
only in the patch is set from the patch, a key present only in the base keeps
the base's value; (4) the spec's concrete scenario. -/
theorem deep_merge_correct :
    (∀ b p : JVal, isObj b = false ∨ isObj p = false → deep_merge b p = p) ∧
    (∀ bf pf, deep_merge (.jobj bf) (.jobj pf) = .jobj (mergeFields bf pf)) ∧
    (∀ bf pf, (bf.map Prod.fst).Nodup → (pf.map Prod.fst).Nodup → ∀ k,
      alookup (mergeFields bf pf) k =
        match alookup bf k, alookup pf k with
        | some bv, some pv => some (deep_merge bv pv)
        | some bv, Option.none => some bv
        | Option.none, some pv => some pv
        | Option.none, Option.none => Option.none) ∧
    deep_merge (.jobj [("a", .jint 1), ("b", .jobj [("c", .jint 2)])])
               (.jobj [("b", .jobj [("d", .jint 3)]), ("e", .jint 4)])
      = .jobj [("a", .jint 1), ("b", .jobj [("c", .jint 2), ("d", .jint 3)]),
               ("e", .jint 4)] := by
  refine ⟨?_, ?_, ?_, ?_⟩
  · intro b p h
    cases b <;> cases p <;> simp [deep_merge] <;> simp [isObj] at h
  · intro bf pf
    simp [deep_merge]
  · intro bf pf hb hp k
    exact mergeFields_alookup pf bf hb hp k
  · simp [deep_merge, mergeFields, lookupField, alookup, setField]

/-- Witness for `deep_merge_correct`: a non-object base is replaced by the
patch, and the key-wise rule evaluated at a concrete merge. -/
theorem deep_merge_correct_witness :
    deep_merge (.jint 1) (.jarr [.jint 2]) = .jarr [.jint 2] ∧
    alookup (mergeFields [("a", .jint 1)] [("b", .jint 2)]) "b" = some (.jint 2) := by
  constructor
  · exact deep_merge_correct.1 (.jint 1) (.jarr [.jint 2]) (Or.inl rfl)
  · rw [deep_merge_correct.2.2.1 [("a", .jint 1)] [("b", .jint 2)]
      (by simp) (by simp) "b"]
    simp [alookup]

/-- C8: the three path-parsing equalities stated by the spec. The Python list
`["users", 0, "name"]` is the segment list `[key "users", idx 0, key "name"]`. -/
theorem parse_path_examples :
    parse_path "users[0].name" = .ok [Seg.key "users", Seg.idx 0, Seg.key "name"] ∧
    parse_path "root" = .ok [] ∧
    parse_path "root[0].key" = .ok [Seg.idx 0, Seg.key "key"] := by
  refine ⟨?_, ?_, ?_⟩
  · simp [parse_path, stripWs, pySpace, listStarts, parseSegs, skipDot, notRB, notDotLB,
      digitsVal]
  · simp [parse_path, stripWs, pySpace]
  · simp [parse_path, stripWs, pySpace, listStarts, parseSegs, skipDot, notRB, notDotLB,
      digitsVal]

/-! ### C9 support -/

theorem scanMax_eq_max (files : List String) : ∀ acc,
    scanMax acc files = max acc (maxLeading files) := by
  induction files with
  | nil => intro acc; simp [scanMax, maxLeading]
  | cons f fs ih =>
    intro acc
    cases h : leadingNum f with
    | some n =>
      have : scanMax acc (f :: fs) = scanMax (max acc n) fs := by
        simp [scanMax, h]
      rw [this, ih (max acc n)]
      have : maxLeading (f :: fs) = max n (maxLeading fs) := by
        simp [maxLeading, List.filterMap_cons, h]
      rw [this]
      omega
    | none =>
      have : scanMax acc (f :: fs) = scanMax acc fs := by
        simp [scanMax, h]
      rw [this, ih acc]
      have : maxLeading (f :: fs) = maxLeading fs := by
        simp [maxLeading, List.filterMap_cons, h]
      rw [this]

theorem maxLeading_append (l₁ l₂ : List String) :
    maxLeading (l₁ ++ l₂) = max (maxLeading l₁) (maxLeading l₂) := by
  induction l₁ with
  | nil => simp [maxLeading]
  | cons f fs ih =>
    cases h : leadingNum f with
    | some n =>
      simp only [maxLeading, List.cons_append, List.filterMap_cons, h] at ih ⊢
      simp only [List.foldr_cons]
      rw [ih]
      omega
    | none =>
      simp only [maxLeading, List.cons_append, List.filterMap_cons, h] at ih ⊢
      rw [ih]

/-- C9: the issue-ID utility returns one plus the maximum leading-digit prefix
over the filenames of `open/` and `closed/`, zero-padded to three digits;
`"001"` when no filename has a digit prefix; and the concrete scenario
`001-foo`, `003-bar` in open/ and `002-baz` in closed/ yields `"004"`. -/
theorem next_issue_id_correct :
    (∀ o c, next_issue_id o c = zpad3 (maxLeading (o ++ c) + 1)) ∧
    (∀ o c, (o ++ c).filterMap leadingNum = [] → next_issue_id o c = "001") ∧
    next_issue_id ["001-foo", "003-bar"] ["002-baz"] = "004" := by
  have main : ∀ o c, next_issue_id o c = zpad3 (maxLeading (o ++ c) + 1) := by
    intro o c
    unfold next_issue_id
    rw [scanMax_eq_max o 0, scanMax_eq_max c, maxLeading_append]
    congr 1
    omega
  refine ⟨main, ?_, ?_⟩
  · intro o c h
    rw [main o c]
    have : maxLeading (o ++ c) = 0 := by simp [maxLeading, h]
    rw [this]
    simp [zpad3, natRepr, natDigitsN, digitChar]
  · rw [main]
    have : maxLeading (["001-foo", "003-bar"] ++ ["002-baz"]) = 3 := by
      simp [maxLeading, List.filterMap, leadingNum, digitsVal]
    rw [this]
    simp [zpad3, natRepr, natDigitsN, digitChar]

/-- Witness for `next_issue_id_correct`: the no-digit-prefix branch at a
concrete directory listing. -/
theorem next_issue_id_correct_witness : next_issue_id ["foo"] ["bar"] = "001" :=
  next_issue_id_correct.2.1 ["foo"] ["bar"] (by simp [List.filterMap, leadingNum])

/-! ### C3 support: the navigator walk decomposes over appended segments -/

theorem navGo_append (l₁ l₂ : List Seg) : ∀ pk node,
    navGo pk node (l₁ ++ l₂) =
      match navGo pk node l₁ with
      | .ok (pk', n') => navGo pk' n' l₂
      | .error e => .error e := by
  induction l₁ with
  | nil => intro pk node; simp [navGo]
  | cons seg rest ih =>
    intro pk node
    cases seg with
    | key s =>
      cases node
      case jobj fields =>
        simp only [List.cons_append, navGo]
        cases alookup fields s with
        | some v => exact ih _ _
        | none => rfl
      all_goals rfl
    | idx i =>
      cases node
      case jarr xs =>
        simp only [List.cons_append, navGo]
        by_cases h : -(xs.length : Int) ≤ i ∧ i < (xs.length : Int)
        · rw [if_pos h, if_pos h]
          exact ih _ _
        · rw [if_neg h, if_neg h]
      all_goals rfl

/-- C3: stepping the navigator one segment further from any reachable node:
a string segment over an object succeeds exactly when the key is present and
otherwise fails with the key-not-found error for that key; an integer segment
`i` over an array of length `n` succeeds exactly when `-n ≤ i < n` (negative
indices count from the end) and otherwise fails with the index-out-of-range
error reporting the attempted index and the current length. -/
theorem navigate_step_errors :
    ∀ (data : JVal) (pre : List Seg) (pk : Option (JVal × Seg)) (node : JVal),
      navigate data pre = .ok (pk, node) →
      (∀ s fields, node = .jobj fields →
        ((∀ v, alookup fields s = some v →
            navigate data (pre ++ [Seg.key s]) = .ok (some (node, Seg.key s), v)) ∧
         (alookup fields s = Option.none →
            navigate data (pre ++ [Seg.key s]) = .error (.keyNotFound s)))) ∧
      (∀ i xs, node = .jarr xs →
        ((-(xs.length : Int) ≤ i ∧ i < (xs.length : Int) →
            navigate data (pre ++ [Seg.idx i]) =
              .ok (some (node, Seg.idx i), xs.getD (normIdx i xs.length) JVal.jnull)) ∧
         (¬(-(xs.length : Int) ≤ i ∧ i < (xs.length : Int)) →
            navigate data (pre ++ [Seg.idx i]) =
              .error (.idxOutOfRange i xs.length)))) := by
  intro data pre pk node h
  constructor
  · intro s fields hnode
    subst hnode
    constructor
    · intro v hv
      unfold navigate at h ⊢
      rw [navGo_append, h]
      simp [navGo, hv]
    · intro hv
      unfold navigate at h ⊢
      rw [navGo_append, h]
      simp [navGo, hv]
  · intro i xs hnode
    subst hnode
    constructor
    · intro hbound
      unfold navigate at h ⊢
      rw [navGo_append, h]
      simp [navGo, hbound]
    · intro hbound
      unfold navigate at h ⊢
      rw [navGo_append, h]
      simp [navGo, hbound]

/-- Witness for `navigate_step_errors`: index 5 on the 3-element array at key
`a` fails with the out-of-range error carrying index 5 and length 3, and the
missing key `b` fails with key-not-found. -/
theorem navigate_step_errors_witness :
    navigate (.jobj [("a", .jarr [.jint 1, .jint 2, .jint 3])]) [Seg.key "a", Seg.idx 5]
      = .error (.idxOutOfRange 5 3) ∧
    navigate (.jobj [("a", .jarr [.jint 1, .jint 2, .jint 3])]) [Seg.key "b"]
      = .error (.keyNotFound "b") := by
  constructor
  · have h := navigate_step_errors (.jobj [("a", .jarr [.jint 1, .jint 2, .jint 3])])
      [Seg.key "a"]
      (some (.jobj [("a", .jarr [.jint 1, .jint 2, .jint 3])], Seg.key "a"))
      (.jarr [.jint 1, .jint 2, .jint 3])
      (by simp [navigate, navGo, alookup])
    exact (h.2 5 [.jint 1, .jint 2, .jint 3] rfl).2 (by simp)
  · have h := navigate_step_errors (.jobj [("a", .jarr [.jint 1, .jint 2, .jint 3])])
      [] Option.none (.jobj [("a", .jarr [.jint 1, .jint 2, .jint 3])])
      (by simp [navigate, navGo])
    exact (h.1 "b" [("a", .jarr [.jint 1, .jint 2, .jint 3])] rfl).2 (by simp [alookup])

/-! ### C4 support: decimal index rendering is digit-only and injective -/

theorem natDigitsN_lt10 : ∀ n : Nat, ∀ d ∈ natDigitsN n, d < 10 := by
  intro n
  induction n using Nat.strongRecOn with
  | _ n ih =>
    intro d hd
    unfold natDigitsN at hd
    split at hd
    · simp at hd
      omega
    · rename_i h
      simp only [List.mem_append, List.mem_singleton] at hd
      rcases hd with hd | hd
      · exact ih (n / 10) (Nat.div_lt_self (by omega) (by omega)) d hd
      · subst hd
        omega

theorem decDigits_natDigitsN : ∀ n : Nat, decDigits (natDigitsN n) = n := by
  intro n
  induction n using Nat.strongRecOn with
  | _ n ih =>
    unfold natDigitsN
    split
    · simp [decDigits]
    · rename_i h
      have ih' := ih (n / 10) (Nat.div_lt_self (by omega) (by omega))
      simp only [decDigits, List.foldl_append, List.foldl_cons, List.foldl_nil] at ih' ⊢
      rw [ih']
      omega

theorem natDigitsN_inj {a b : Nat} (h : natDigitsN a = natDigitsN b) : a = b := by
  have ha := decDigits_natDigitsN a
  rw [h, decDigits_natDigitsN b] at ha
  omega

theorem digitChar_lt10_inj : ∀ d₁ : Nat, d₁ < 10 → ∀ d₂ : Nat, d₂ < 10 →
    digitChar d₁ = digitChar d₂ → d₁ = d₂ := by decide

theorem digitChar_props : ∀ d : Nat, d < 10 →
    notRB (digitChar d) = true ∧ notDotLB (digitChar d) = true := by decide

theorem map_digitChar_inj : ∀ l₁ l₂ : List Nat, (∀ d ∈ l₁, d < 10) → (∀ d ∈ l₂, d < 10) →
    l₁.map digitChar = l₂.map digitChar → l₁ = l₂ := by
  intro l₁
  induction l₁ with
  | nil =>
    intro l₂ _ _ h
    cases l₂ with
    | nil => rfl
    | cons e es => simp at h
  | cons d ds ih =>
    intro l₂ h₁ h₂ h
    cases l₂ with
    | nil => simp at h
    | cons e es =>
      simp only [List.map_cons, List.cons.injEq] at h
      have hd : d = e := digitChar_lt10_inj d (h₁ d (by simp)) e (h₂ e (by simp)) h.1
      rw [hd, ih es (fun x hx => h₁ x (by simp [hx])) (fun x hx => h₂ x (by simp [hx])) h.2]

theorem natRepr_data_inj {a b : Nat} (h : (natRepr a).data = (natRepr b).data) : a = b := by
  have hdata : (natDigitsN a).map digitChar = (natDigitsN b).map digitChar := h
  exact natDigitsN_inj (map_digitChar_inj _ _ (natDigitsN_lt10 a) (natDigitsN_lt10 b) hdata)

theorem natRepr_chars (n : Nat) : ∀ c ∈ (natRepr n).data,
    notRB c = true ∧ notDotLB c = true := by
  intro c hc
  have hc' : c ∈ (natDigitsN n).map digitChar := hc
  rw [List.mem_map] at hc'
  obtain ⟨d, hd, rfl⟩ := hc'
  exact digitChar_props d (natDigitsN_lt10 n d hd)

/-! ### C4 support: a path's key/index is recoverable from its extension -/

theorem takeWhile_all_append (p : Char → Bool) (k e : List Char) (hk : k.all p = true)
    (he : ∀ c t, e = c :: t → p c = false) : (k ++ e).takeWhile p = k := by
  induction k with
  | nil =>
    cases e with
    | nil => rfl
    | cons c t => simp [List.takeWhile_cons, he c t rfl]
  | cons a as ih =>
    simp only [List.all_cons, Bool.and_eq_true] at hk
    simp [List.takeWhile_cons, hk.1, ih hk.2]

theorem extTail_head_notDotLB {e : List Char} (he : ExtTail e) :
    ∀ c t, e = c :: t → notDotLB c = false := by
  intro c t hct
  rcases he with he | ⟨t', he⟩ | ⟨t', he⟩
  · rw [he] at hct
    exact absurd hct (by simp)
  · rw [he] at hct
    injection hct with h1 _
    rw [← h1]
    decide
  · rw [he] at hct
    injection hct with h1 _
    rw [← h1]
    decide

theorem key_ext_inj (k₁ k₂ e₁ e₂ : List Char)
    (h₁ : k₁.all notDotLB = true) (h₂ : k₂.all notDotLB = true)
    (he₁ : ExtTail e₁) (he₂ : ExtTail e₂)
    (heq : k₁ ++ e₁ = k₂ ++ e₂) : k₁ = k₂ ∧ e₁ = e₂ := by
  have t₁ := takeWhile_all_append notDotLB k₁ e₁ h₁ (extTail_head_notDotLB he₁)
  have t₂ := takeWhile_all_append notDotLB k₂ e₂ h₂ (extTail_head_notDotLB he₂)
  have hk : k₁ = k₂ := by rw [← t₁, ← t₂, heq]
  subst hk
  exact ⟨rfl, List.append_cancel_left heq⟩

theorem idx_ext_inj (d₁ d₂ : Nat) (e₁ e₂ : List Char)
    (heq : (natRepr d₁).data ++ ']' :: e₁ = (natRepr d₂).data ++ ']' :: e₂) :
    d₁ = d₂ ∧ e₁ = e₂ := by
  have hall : ∀ n : Nat, ((natRepr n).data).all notRB = true := by
    intro n
    rw [List.all_eq_true]
    intro c hc
    exact (natRepr_chars n c hc).1
  have hhead : ∀ (e : List Char) c t, (']' :: e) = c :: t → notRB c = false := by
    intro e c t h
    injection h with h1 _
    rw [← h1]
    decide
  have t₁ := takeWhile_all_append notRB _ _ (hall d₁) (hhead e₁)
  have t₂ := takeWhile_all_append notRB _ _ (hall d₂) (hhead e₂)
  have hdd : (natRepr d₁).data = (natRepr d₂).data := by rw [← t₁, ← t₂, heq]
  have hd : d₁ = d₂ := natRepr_data_inj hdd
  subst hd
  rw [List.append_cancel_left_eq] at heq
  injection heq with _ h2
  exact ⟨rfl, h2⟩

/-! ### C4 support: the shape of flattened paths -/

theorem path_dot_data (p k : String) : (p ++ "." ++ k).data = p.data ++ '.' :: k.data := by
  simp

theorem path_idx_data (p : String) (i : Nat) :
    (p ++ "[" ++ natRepr i ++ "]").data = p.data ++ '[' :: ((natRepr i).data ++ [']']) := by
  simp

/-- Every path produced by a non-root flatten extends the starting path with
an empty, dotted or bracketed tail. -/
theorem flatten_path_shape : ∀ v : JVal, ∀ p q, q ∈ (flatten v p false).map Prod.fst →
    ∃ e, q.data = p.data ++ e ∧ ExtTail e := by
  intro v
  induction v using JVal.sizeInd with
  | step v ih =>
    intro p q hq
    cases v with
    | jobj fields =>
      simp only [flatten, List.map_cons, List.mem_cons] at hq
      rcases hq with hq | hq
      · exact ⟨[], by simp [hq], Or.inl rfl⟩
      · have haux : ∀ fs : List (String × JVal),
            (∀ kv, kv ∈ fs → sizeOf kv.2 < sizeOf (JVal.jobj fields)) →
            q ∈ (flattenFields fs p false).map Prod.fst →
            ∃ e, q.data = p.data ++ e ∧ ExtTail e := by
          intro fs
          induction fs with
          | nil => intro _ hmem; simp [flattenFields] at hmem
          | cons kv rest ihl =>
            obtain ⟨k, v'⟩ := kv
            intro hsz hmem
            simp only [flattenFields, List.map_append, List.mem_append] at hmem
            rcases hmem with hmem | hmem
            · obtain ⟨e₂, he₂, _⟩ := ih v' (hsz (k, v') (by simp)) (p ++ "." ++ k) q hmem
              refine ⟨'.' :: (k.data ++ e₂), ?_, Or.inr (Or.inl ⟨_, rfl⟩)⟩
              rw [he₂, path_dot_data]
              simp
            · exact ihl (fun kv hkv => hsz kv (by simp [hkv])) hmem
        exact haux fields (fun kv hkv => sizeOf_lt_of_mem_fields hkv) hq
    | jarr elems =>
      simp only [flatten, List.map_cons, List.mem_cons] at hq
      rcases hq with hq | hq
      · exact ⟨[], by simp [hq], Or.inl rfl⟩
      · have haux : ∀ (xs : List JVal) (i : Nat),
            (∀ x, x ∈ xs → sizeOf x < sizeOf (JVal.jarr elems)) →
            q ∈ (flattenElems xs p i).map Prod.fst →
            ∃ e, q.data = p.data ++ e ∧ ExtTail e := by
          intro xs
          induction xs with
          | nil => intro i _ hmem; simp [flattenElems] at hmem
          | cons x rest ihl =>
            intro i hsz hmem
            simp only [flattenElems, List.map_append, List.mem_append] at hmem
            rcases hmem with hmem | hmem
            · obtain ⟨e₂, he₂, _⟩ :=
                ih x (hsz x (by simp)) (p ++ "[" ++ natRepr i ++ "]") q hmem
              refine ⟨'[' :: ((natRepr i).data ++ ']' :: e₂), ?_, Or.inr (Or.inr ⟨_, rfl⟩)⟩
              rw [he₂, path_idx_data]
              simp
            · exact ihl (i + 1) (fun x hx => hsz x (by simp [hx])) hmem
        exact haux elems 0 (fun x hx => sizeOf_lt_of_mem_elems hx) hq
    | jnull => simp only [flatten, List.map_cons, List.mem_cons] at hq
                 <;> exact ⟨[], by simp [hq.resolve_right (by simp)], Or.inl rfl⟩
    | jbool b => simp only [flatten, List.map_cons, List.mem_cons] at hq
                 <;> exact ⟨[], by simp [hq.resolve_right (by simp)], Or.inl rfl⟩
    | jint n => simp only [flatten, List.map_cons, List.mem_cons] at hq
                 <;> exact ⟨[], by simp [hq.resolve_right (by simp)], Or.inl rfl⟩
    | jnum r => simp only [flatten, List.map_cons, List.mem_cons] at hq
                 <;> exact ⟨[], by simp [hq.resolve_right (by simp)], Or.inl rfl⟩
    | jstr s => simp only [flatten, List.map_cons, List.mem_cons] at hq
                 <;> exact ⟨[], by simp [hq.resolve_right (by simp)], Or.inl rfl⟩

/-- Which child a path inside a nested `flattenFields` run belongs to. -/
theorem mem_flattenFields_shape : ∀ (fields : List (String × JVal)) (p : String) (q : String),
    q ∈ (flattenFields fields p false).map Prod.fst →
    ∃ k v e, (k, v) ∈ fields ∧ q.data = p.data ++ '.' :: (k.data ++ e) ∧ ExtTail e := by
  intro fields p q
  induction fields with
  | nil => intro h; simp [flattenFields] at h
  | cons kv rest ihl =>
    obtain ⟨k, v⟩ := kv
    intro hmem
    simp only [flattenFields, List.map_append, List.mem_append] at hmem
    rcases hmem with hmem | hmem
    · obtain ⟨e₂, he₂, hext⟩ := flatten_path_shape v (p ++ "." ++ k) q hmem
      refine ⟨k, v, e₂, by simp, ?_, hext⟩
      rw [he₂, path_dot_data]
      simp
    · obtain ⟨k₂, v₂, e₂, hm, hd, hext⟩ := ihl hmem
      exact ⟨k₂, v₂, e₂, by simp [hm], hd, hext⟩

/-- Which child a root-level `flattenFields` path belongs to (bare keys). -/
theorem mem_flattenFields_shape_root : ∀ (fields : List (String × JVal)) (p : String)
    (q : String), q ∈ (flattenFields fields p true).map Prod.fst →
    ∃ k v e, (k, v) ∈ fields ∧ q.data = k.data ++ e ∧ ExtTail e := by
  intro fields p q
  induction fields with
  | nil => intro h; simp [flattenFields] at h
  | cons kv rest ihl =>
    obtain ⟨k, v⟩ := kv
    intro hmem
    simp only [flattenFields, List.map_append, List.mem_append] at hmem
    rcases hmem with hmem | hmem
    · obtain ⟨e₂, he₂, hext⟩ := flatten_path_shape v k q hmem
      exact ⟨k, v, e₂, by simp, he₂, hext⟩
    · obtain ⟨k₂, v₂, e₂, hm, hd, hext⟩ := ihl hmem
      exact ⟨k₂, v₂, e₂, by simp [hm], hd, hext⟩

/-- Which element a path inside a `flattenElems` run belongs to. -/
theorem mem_flattenElems_shape : ∀ (xs : List JVal) (p : String) (i : Nat) (q : String),
    q ∈ (flattenElems xs p i).map Prod.fst →
    ∃ j e, i ≤ j ∧ q.data = p.data ++ '[' :: ((natRepr j).data ++ ']' :: e) ∧ ExtTail e := by
  intro xs
  induction xs with
  | nil => intro p i q h; simp [flattenElems] at h
  | cons x rest ihl =>
    intro p i q hmem
    simp only [flattenElems, List.map_append, List.mem_append] at hmem
    rcases hmem with hmem | hmem
    · obtain ⟨e₂, he₂, hext⟩ := flatten_path_shape x (p ++ "[" ++ natRepr i ++ "]") q hmem
      refine ⟨i, e₂, Nat.le_refl i, ?_, hext⟩
      rw [he₂, path_idx_data]
      simp
    · obtain ⟨j, e₂, hij, hd, hext⟩ := ihl p (i + 1) q hmem
      exact ⟨j, e₂, by omega, hd, hext⟩

/-! ### C4 support: uniqueness of flattened paths -/

theorem keysFresh_iff (l : List String) : keysFresh l = true ↔ l.Nodup := by
  induction l with
  | nil => simp [keysFresh]
  | cons k rest ih =>
    simp only [keysFresh, Bool.and_eq_true, List.nodup_cons, ih, List.all_eq_true,
      decide_eq_true_eq]
    constructor
    · rintro ⟨h1, h2⟩
      exact ⟨fun hmem => (h1 k hmem) rfl, h2⟩
    · rintro ⟨h1, h2⟩
      exact ⟨fun k' hk' he => h1 (he ▸ hk'), h2⟩

theorem fieldsWellKeyed_mem : ∀ (fields : List (String × JVal)) (k : String) (v : JVal),
    fieldsWellKeyed fields = true → (k, v) ∈ fields →
    k.data.all notDotLB = true ∧ wellKeyed v = true := by
  intro fields
  induction fields with
  | nil => intro k v _ h; simp at h
  | cons kv rest ih =>
    obtain ⟨k₀, v₀⟩ := kv
    intro k v hwf hmem
    simp only [fieldsWellKeyed, Bool.and_eq_true] at hwf
    rcases List.mem_cons.1 hmem with hmem | hmem
    · injection hmem with h1 h2
      subst h1; subst h2
      exact ⟨hwf.1.1, hwf.1.2⟩
    · exact ih k v hwf.2 hmem

theorem elemsWellKeyed_mem : ∀ (xs : List JVal) (v : JVal),
    elemsWellKeyed xs = true → v ∈ xs → wellKeyed v = true := by
  intro xs
  induction xs with
  | nil => intro v _ h; simp at h
  | cons x rest ih =>
    intro v hwf hmem
    simp only [elemsWellKeyed, Bool.and_eq_true] at hwf
    rcases List.mem_cons.1 hmem with hmem | hmem
    · subst hmem; exact hwf.1
    · exact ih v hwf.2 hmem

theorem flattenFields_nodup_nested (p : String) :
    ∀ fields : List (String × JVal),
      (∀ k v, (k, v) ∈ fields → ∀ p' : String,
        ((flatten v p' false).map Prod.fst).Nodup) →
      (∀ k v, (k, v) ∈ fields → k.data.all notDotLB = true) →
      (fields.map Prod.fst).Nodup →
      ((flattenFields fields p false).map Prod.fst).Nodup := by
  intro fields
  induction fields with
  | nil => intro _ _ _; simp [flattenFields]
  | cons kv rest ih =>
    obtain ⟨k, v⟩ := kv
    intro hnd hok hkeys
    simp only [List.map_cons, List.nodup_cons] at hkeys
    simp only [flattenFields, List.map_append]
    rw [List.nodup_append]
    refine ⟨hnd k v (by simp) _, ih (fun k' v' h => hnd k' v' (by simp [h]))
      (fun k' v' h => hok k' v' (by simp [h])) hkeys.2, ?_⟩
    intro q hq₁ hq₂
    obtain ⟨e₁, he₁, hext₁⟩ := flatten_path_shape v (p ++ "." ++ k) q hq₁
    obtain ⟨k₂, v₂, e₂, hm₂, he₂, hext₂⟩ := mem_flattenFields_shape rest p q hq₂
    rw [path_dot_data] at he₁
    have hcomb : p.data ++ '.' :: (k.data ++ e₁) = p.data ++ '.' :: (k₂.data ++ e₂) := by
      have hq : p.data ++ '.' :: (k.data ++ e₁) = q.data := by
        rw [he₁]
        simp
      rw [hq, he₂]
    rw [List.append_cancel_left_eq] at hcomb
    injection hcomb with _ hkk
    have := key_ext_inj k.data k₂.data e₁ e₂ (hok k v (by simp))
      (hok k₂ v₂ (by simp [hm₂])) hext₁ hext₂ hkk
    have hkeq : k = k₂ := congrArg String.mk this.1
    exact hkeys.1 (hkeq ▸ (List.mem_map_of_mem Prod.fst hm₂))

theorem flattenFields_nodup_root (p : String) :
    ∀ fields : List (String × JVal),
      (∀ k v, (k, v) ∈ fields → ∀ p' : String,
        ((flatten v p' false).map Prod.fst).Nodup) →
      (∀ k v, (k, v) ∈ fields → k.data.all notDotLB = true) →
      (fields.map Prod.fst).Nodup →
      ((flattenFields fields p true).map Prod.fst).Nodup := by
  intro fields
  induction fields with
  | nil => intro _ _ _; simp [flattenFields]
  | cons kv rest ih =>
    obtain ⟨k, v⟩ := kv
    intro hnd hok hkeys
    simp only [List.map_cons, List.nodup_cons] at hkeys
    simp only [flattenFields, List.map_append]
    rw [List.nodup_append]
    refine ⟨hnd k v (by simp) _, ih (fun k' v' h => hnd k' v' (by simp [h]))
      (fun k' v' h => hok k' v' (by simp [h])) hkeys.2, ?_⟩
    intro q hq₁ hq₂
    obtain ⟨e₁, he₁, hext₁⟩ := flatten_path_shape v k q hq₁
    obtain ⟨k₂, v₂, e₂, hm₂, he₂, hext₂⟩ := mem_flattenFields_shape_root rest p q hq₂
    have hcomb : k.data ++ e₁ = k₂.data ++ e₂ := by rw [← he₁, ← he₂]
    have := key_ext_inj k.data k₂.data e₁ e₂ (hok k v (by simp))
      (hok k₂ v₂ (by simp [hm₂])) hext₁ hext₂ hcomb
    have hkeq : k = k₂ := congrArg String.mk this.1
    exact hkeys.1 (hkeq ▸ (List.mem_map_of_mem Prod.fst hm₂))

theorem flattenElems_nodup (p : String) :
    ∀ (xs : List JVal) (i : Nat),
      (∀ v, v ∈ xs → ∀ p' : String, ((flatten v p' false).map Prod.fst).Nodup) →
      ((flattenElems xs p i).map Prod.fst).Nodup := by
  intro xs
  induction xs with
  | nil => intro i _; simp [flattenElems]
  | cons x rest ih =>
    intro i hnd
    simp only [flattenElems, List.map_append]
    rw [List.nodup_append]
    refine ⟨hnd x (by simp) _, ih (i + 1) (fun v h => hnd v (by simp [h])), ?_⟩
    intro q hq₁ hq₂
    obtain ⟨e₁, he₁, hext₁⟩ := flatten_path_shape x (p ++ "[" ++ natRepr i ++ "]") q hq₁
    obtain ⟨j, e₂, hij, he₂, hext₂⟩ := mem_flattenElems_shape rest p (i + 1) q hq₂
    rw [path_idx_data] at he₁
    have hcomb : p.data ++ '[' :: ((natRepr i).data ++ ']' :: e₁)
        = p.data ++ '[' :: ((natRepr j).data ++ ']' :: e₂) := by
      have hq : p.data ++ '[' :: ((natRepr i).data ++ ']' :: e₁) = q.data := by
        rw [he₁]
        simp
      rw [hq, he₂]
    rw [List.append_cancel_left_eq] at hcomb
    injection hcomb with _ hkk
    have := idx_ext_inj i j e₁ e₂ hkk
    omega

/-- Non-root flatten: with well-formed keys, all emitted paths are distinct. -/
theorem flatten_nodup_nonroot : ∀ v : JVal, wellKeyed v = true → ∀ p : String,
    ((flatten v p false).map Prod.fst).Nodup := by
  intro v
  induction v using JVal.sizeInd with
  | step v ih =>
    intro hwk p
    cases v with
    | jobj fields =>
      simp only [wellKeyed, Bool.and_eq_true] at hwk
      simp only [flatten, List.map_cons]
      rw [List.nodup_cons]
      constructor
      · intro hq
        obtain ⟨k, v', e, _, hd, _⟩ := mem_flattenFields_shape fields p p hq
        have := congrArg List.length hd
        simp at this
      · exact flattenFields_nodup_nested p fields
          (fun k v' hm p' => ih v' (sizeOf_lt_of_mem_fields hm)
            (fieldsWellKeyed_mem fields k v' hwk.2 hm).2 p')
          (fun k v' hm => (fieldsWellKeyed_mem fields k v' hwk.2 hm).1)
          ((keysFresh_iff _).1 hwk.1)
    | jarr elems =>
      simp only [wellKeyed] at hwk
      simp only [flatten, List.map_cons]
      rw [List.nodup_cons]
      constructor
      · intro hq
        obtain ⟨j, e, _, hd, _⟩ := mem_flattenElems_shape elems p 0 p hq
        have := congrArg List.length hd
        simp at this
      · exact flattenElems_nodup p elems 0
          (fun v' hm p' => ih v' (sizeOf_lt_of_mem_elems hm)
            (elemsWellKeyed_mem elems v' hwk hm) p')
    | jnull => simp [flatten]
    | jbool b => simp [flatten]
    | jint n => simp [flatten]
    | jnum r => simp [flatten]
    | jstr s => simp [flatten]

/-- C4 (amended): in a flatten pass from the root, every row's path is unique
provided every object key is free of `.` and `[`, each object's keys are
duplicate-free, and no root-level key is the literal string `root`; and the
root row always appears first. -/
theorem flatten_paths_unique (data : JVal) (h1 : wellKeyed data = true)
    (h2 : rootSafe data = true) :
    ((flatten data "root" true).map Prod.fst).Nodup ∧
    ((flatten data "root" true).map Prod.fst).head? = some "root" := by
  constructor
  · cases data with
    | jobj fields =>
      simp only [wellKeyed, Bool.and_eq_true] at h1
      simp only [rootSafe, List.all_eq_true, decide_eq_true_eq] at h2
      simp only [flatten, List.map_cons]
      rw [List.nodup_cons]
      constructor
      · intro hq
        obtain ⟨k, v', e, hm, hd, hext⟩ := mem_flattenFields_shape_root fields "root"
          "root" hq
        have hkeq := key_ext_inj k.data "root".data e []
          (fieldsWellKeyed_mem fields k v' h1.2 hm).1 (by decide) hext (Or.inl rfl)
          (by rw [← hd]; simp)
        exact h2 k (List.mem_map_of_mem Prod.fst hm) (congrArg String.mk hkeq.1)
      · exact flattenFields_nodup_root "root" fields
          (fun k v' hm p' => flatten_nodup_nonroot v'
            (fieldsWellKeyed_mem fields k v' h1.2 hm).2 p')
          (fun k v' hm => (fieldsWellKeyed_mem fields k v' h1.2 hm).1)
          ((keysFresh_iff _).1 h1.1)
    | jarr elems =>
      simp only [wellKeyed] at h1
      simp only [flatten, List.map_cons]
      rw [List.nodup_cons]
      constructor
      · intro hq
        obtain ⟨j, e, _, hd, _⟩ := mem_flattenElems_shape elems "root" 0 "root" hq
        have := congrArg List.length hd
        simp at this
      · exact flattenElems_nodup "root" elems 0
          (fun v' hm p' => flatten_nodup_nonroot v' (elemsWellKeyed_mem elems v' h1 hm) p')
    | jnull => simp [flatten]
    | jbool b => simp [flatten]
    | jint n => simp [flatten]
    | jnum r => simp [flatten]
    | jstr s => simp [flatten]
  · cases data <;> simp [flatten]

/-- Witness for `flatten_paths_unique` at a concrete document. -/
theorem flatten_paths_unique_witness :
    ((flatten (.jobj [("a", .jarr [.jint 1]), ("b", .jint 2)]) "root" true).map
      Prod.fst).Nodup ∧
    ((flatten (.jobj [("a", .jarr [.jint 1]), ("b", .jint 2)]) "root" true).map
      Prod.fst).head? = some "root" :=
  flatten_paths_unique (.jobj [("a", .jarr [.jint 1]), ("b", .jint 2)])
    (by simp [wellKeyed, fieldsWellKeyed, elemsWellKeyed, keysFresh, notDotLB])
    (by simp [rootSafe])

/-- C4 counterexample: with the object key `a.b` (legal in JSON), the rows for
`{"a": {"b": 1}, "a.b": 2}` contain the path `a.b` twice, so paths are not
unique for every JSON value. -/
theorem flatten_paths_dup_counterexample :
    ((flatten (.jobj [("a", .jobj [("b", .jint 1)]), ("a.b", .jint 2)]) "root" true).map
      Prod.fst) = ["root", "a", "a.b", "a.b"] ∧
    ¬ (["root", "a", "a.b", "a.b"] : List String).Nodup := by
  constructor
  · simp [flatten, flattenFields]
  · decide

/-! ### C5: how child paths are composed -/

theorem listStarts_self_append : ∀ l t : List Char, listStarts l (l ++ t) = true := by
  intro l
  induction l with
  | nil => intro t; rfl
  | cons c cs ih => intro t; simp [listStarts, ih]

/-- C5 (amended): children of a root-level object are emitted with bare keys
(no leading dot, no root prefix); children of a nested object are emitted as
`parent.key`; array elements are always emitted as `parent[i]` — in
particular the children of a root-level array keep the `root` prefix
(`root[0]`, `root[1]`, ...), they are not bare. -/
theorem flatten_child_path_composition :
    (∀ (k : String) (v : JVal) rest p, flattenFields ((k, v) :: rest) p true
        = flatten v k false ++ flattenFields rest p true) ∧
    (∀ (k : String) (v : JVal) rest p, flattenFields ((k, v) :: rest) p false
        = flatten v (p ++ "." ++ k) false ++ flattenFields rest p false) ∧
    (∀ (v : JVal) rest p i, flattenElems (v :: rest) p i
        = flatten v (p ++ "[" ++ natRepr i ++ "]") false ++ flattenElems rest p (i + 1)) ∧
    (∀ xs q, q ∈ (flattenElems xs "root" 0).map Prod.fst →
        listStarts "root[".data q.data = true) := by
  refine ⟨?_, ?_, ?_, ?_⟩
  · intro k v rest p
    simp [flattenFields]
  · intro k v rest p
    simp [flattenFields]
  · intro v rest p i
    simp [flattenElems]
  · intro xs q hq
    obtain ⟨j, e, _, hd, _⟩ := mem_flattenElems_shape xs "root" 0 q hq
    have hroot : "root[".data ++ ((natRepr j).data ++ ']' :: e) = q.data := by
      rw [hd]
      simp
    rw [← hroot]
    exact listStarts_self_append _ _

/-- Witness for `flatten_child_path_composition`: the single element of the
root-level array `[1]` is emitted at `root[0]`, a path starting with `root[`. -/
theorem flatten_child_path_composition_witness :
    listStarts "root[".data "root[0]".data = true :=
  flatten_child_path_composition.2.2.2 [.jint 1] "root[0]"
    (by simp [flattenElems, flatten, natRepr, natDigitsN, digitChar])

/-- C5 counterexample: flattening the root-level array `[1]` emits its child
row at path `root[0]` — the root prefix is retained for root-array children,
contradicting the claim that they are emitted bare (no root prefix). -/
theorem flatten_root_array_keeps_root_prefix :
    flatten (.jarr [.jint 1]) "root" true
      = [("root", "array", RowVal.none), ("root[0]", "integer", RowVal.int 1)] ∧
    listStarts "root".data "root[0]".data = true := by
  constructor
  · simp [flatten, flattenElems, natRepr, natDigitsN, digitChar, get_type_name, primValue]
  · simp [listStarts]

/-! ### C6: the schema reducer implements first-occurrence deduplication -/

theorem schemaGo_filter_step : ∀ (rest : List Row) (seen : List (String × String))
    (kp : String × String),
    ((rest.filter (fun r => decide ((sig r.1, r.2.1) ∉ seen))).map schemaTransform).filter
        (fun r' => decide ¬(r'.1 = kp.1 ∧ r'.2.1 = kp.2))
      = (rest.filter (fun r => decide ((sig r.1, r.2.1) ∉ kp :: seen))).map schemaTransform := by
  intro rest
  induction rest with
  | nil => intro seen kp; simp
  | cons r rows ih =>
    intro seen kp
    obtain ⟨p, t, v⟩ := r
    simp only [List.filter_cons]
    by_cases h1 : (sig p, t) ∈ seen
    · rw [if_neg (by simp [h1]), if_neg (by simp; intro _; exact h1)]
      exact ih seen kp
    · by_cases h3 : sig p = kp.1 ∧ t = kp.2
      · have hmem : (sig p, t) ∈ kp :: seen := by
          simp only [List.mem_cons]
          exact Or.inl (Prod.ext h3.1 h3.2)
        rw [if_pos (by simp [h1]), if_neg (by simp [hmem])]
        simp only [List.map_cons, List.filter_cons]
        rw [if_neg (by simp [schemaTransform, h3.1, h3.2])]
        exact ih seen kp
      · have hmem : ¬ (sig p, t) ∈ kp :: seen := by
          simp only [List.mem_cons]
          rintro (hc | hc)
          · exact h3 ⟨congrArg Prod.fst hc, congrArg Prod.snd hc⟩
          · exact h1 hc
        rw [if_pos (by simp [h1]), if_pos (by simp [hmem])]
        simp only [List.map_cons, List.filter_cons]
        rw [if_pos (by simp [schemaTransform]; exact not_and_or.mp h3)]
        simp only [List.cons.injEq, true_and]
        exact ih seen kp

theorem schemaGo_spec : ∀ (rows : List Row) (seen : List (String × String)),
    schemaGo seen rows
      = dedupByKey ((rows.filter (fun r => decide ((sig r.1, r.2.1) ∉ seen))).map
          schemaTransform) := by
  intro rows
  induction rows with
  | nil => intro seen; simp [schemaGo, dedupByKey]
  | cons r rest ih =>
    intro seen
    obtain ⟨p, t, v⟩ := r
    by_cases h : (sig p, t) ∈ seen
    · simp only [schemaGo, h, if_true, List.filter_cons]
      rw [if_neg (by simp [h])]
      exact ih seen
    · simp only [schemaGo, h, if_false, List.filter_cons]
      rw [if_pos (by simp [h])]
      simp only [List.map_cons]
      rw [dedupByKey]
      simp only [List.cons.injEq]
      refine ⟨rfl, ?_⟩
      rw [ih ((sig p, t) :: seen)]
      congr 1
      have := schemaGo_filter_step rest seen (sig p, t)
      simpa [schemaTransform] using this.symm

/-- C6: the schema view equals the spec's description — replace bracketed
indices by the `[*]` wildcard, deduplicate by the (structural-path, type) pair
keeping the first occurrence in original order, suppress primitive values and
keep the `(empty)`/`(null)` markers — and the concrete scenario: flattening
`{"a":[1,2,3]}` then reducing yields exactly the three rows `root` (object),
`a` (array), `a[*]` (integer). -/
theorem schema_rows_correct :
    (∀ rows, schema_rows rows = schemaRowsSpec rows) ∧
    schema_rows (infer_nulls
        (flatten (.jobj [("a", .jarr [.jint 1, .jint 2, .jint 3])]) "root" true))
      = [("root", "object", RowVal.none), ("a", "array", RowVal.none),
         ("a[*]", "integer", RowVal.none)] := by
  constructor
  · intro rows
    unfold schema_rows schemaRowsSpec
    rw [schemaGo_spec rows []]
    congr 1
    simp
  · simp [flatten, flattenFields, flattenElems, natRepr, natDigitsN, digitChar,
      get_type_name, primValue, infer_nulls, recordKnown, alookup, orUnknown,
      schema_rows, schemaGo, suppressValue, sig, sigAux]

/-! ### C7: null inference -/

theorem recordKnown_alookup : ∀ (rows : List Row) (known : List (String × String))
    (s : String),
    alookup (recordKnown known rows) s =
      match alookup known s with
      | some t => some t
      | Option.none => firstTypeCode rows s := by
  intro rows
  induction rows with
  | nil =>
    intro known s
    cases h : alookup known s <;> simp [recordKnown, firstTypeCode, h]
  | cons r rest ih =>
    intro known s
    obtain ⟨p, t, v⟩ := r
    by_cases hA : v = RowVal.none ∨ v = RowVal.str "(empty)"
    · have hrec : recordableCode (p, t, v) = false := by
        simp [recordableCode, hA]
      simp only [recordKnown, if_pos hA]
      rw [ih known s]
      have : firstTypeCode ((p, t, v) :: rest) s = firstTypeCode rest s := by
        simp [firstTypeCode, List.find?, hrec]
      rw [this]
    · by_cases hB : t = "null" ∨ t = "object" ∨ t = "array"
      · have hrec : recordableCode (p, t, v) = false := by
          simp only [recordableCode]
          simp [hB]
        simp only [recordKnown, if_neg hA, if_pos hB]
        rw [ih known s]
        have : firstTypeCode ((p, t, v) :: rest) s = firstTypeCode rest s := by
          simp [firstTypeCode, List.find?, hrec]
        rw [this]
      · have hrec : recordableCode (p, t, v) = true := by
          simp only [recordableCode]
          simp [hA, hB]
        by_cases hC : (alookup known (sig p)).isSome
        · simp only [recordKnown, if_neg hA, if_neg hB, if_pos hC]
          rw [ih known s]
          by_cases hs : sig p = s
          · obtain ⟨t₀, ht₀⟩ := Option.isSome_iff_exists.1 hC
            rw [← hs, ht₀]
          · have : firstTypeCode ((p, t, v) :: rest) s = firstTypeCode rest s := by
              simp [firstTypeCode, List.find?, hrec, hs]
            rw [this]
        · have hCnone : alookup known (sig p) = Option.none := by
            cases h : alookup known (sig p)
            · rfl
            · rw [h] at hC; simp at hC
          simp only [recordKnown, if_neg hA, if_neg hB, if_neg hC]
          rw [ih (known ++ [(sig p, t)]) s]
          by_cases hs : sig p = s
          · subst hs
            rw [alookup_append, hCnone]
            have hfind : firstTypeCode ((p, t, v) :: rest) (sig p) = some t := by
              simp [firstTypeCode, List.find?, hrec]
            simp [alookup, hCnone, hfind]
          · have hne : ¬ sig p = s := hs
            rw [alookup_append]
            have hsingle : alookup [(sig p, t)] s = Option.none := by
              simp [alookup, hne]
            have hstep : firstTypeCode ((p, t, v) :: rest) s = firstTypeCode rest s := by
              simp [firstTypeCode, List.find?, hrec, hs]
            rw [hstep]
            cases h : alookup known s <;> simp [hsingle]

/-- C7 (amended): null inference records, for each structural signature, the
first type seen among rows that are non-container, non-null AND whose value is
neither absent nor the `(empty)` marker string (the code also skips those),
then rewrites every literal-null row's type to the recorded type when one
exists and is nonempty (Python's falsy `or`), else to `unknown`, with the
`(null)` marker; all other rows pass through.  The spec's scenario holds: with
signature `a[*].x` typed string at the first element and integer later, every
inferred null at `a[*].x` resolves to `string`. -/
theorem infer_nulls_correct :
    (∀ rows, infer_nulls rows = inferNullsAmended rows) ∧
    infer_nulls (flatten (.jobj [("a", .jarr
        [.jobj [("x", .jstr "s")], .jobj [("x", .jint 5)], .jobj [("x", .jnull)]])])
        "root" true)
      = [("root", "object", RowVal.none), ("a", "array", RowVal.none),
         ("a[0]", "object", RowVal.none), ("a[0].x", "string", RowVal.str "s"),
         ("a[1]", "object", RowVal.none), ("a[1].x", "integer", RowVal.int 5),
         ("a[2]", "object", RowVal.none),
         ("a[2].x", "string", RowVal.str "(null)")] := by
  constructor
  · intro rows
    unfold infer_nulls inferNullsAmended
    apply List.map_congr_left
    intro r _
    have hk := recordKnown_alookup rows [] (sig r.1)
    simp only [alookup] at hk
    rw [hk]
  · simp [flatten, flattenFields, flattenElems, natRepr, natDigitsN, digitChar,
      get_type_name, primValue, infer_nulls, recordKnown, alookup, orUnknown, sig, sigAux]

/-- C7 counterexample: the rows of `{"a": ["(empty)", null]}` contain a
non-container, non-null row (`a[0]`, type string) whose recorded type the
claim says should resolve the null at `a[1]` to `string`; the code skips any
row whose value equals the `"(empty)"` marker string, so the null resolves to
`unknown` instead. -/
theorem infer_nulls_claimed_counterexample :
    infer_nulls (flatten (.jobj [("a", .jarr [.jstr "(empty)", .jnull])]) "root" true)
      = [("root", "object", RowVal.none), ("a", "array", RowVal.none),
         ("a[0]", "string", RowVal.str "(empty)"),
         ("a[1]", "unknown", RowVal.str "(null)")] ∧
    inferNullsClaimed (flatten (.jobj [("a", .jarr [.jstr "(empty)", .jnull])]) "root" true)
      = [("root", "object", RowVal.none), ("a", "array", RowVal.none),
         ("a[0]", "string", RowVal.str "(empty)"),
         ("a[1]", "string", RowVal.str "(null)")] ∧
    infer_nulls (flatten (.jobj [("a", .jarr [.jstr "(empty)", .jnull])]) "root" true)
      ≠ inferNullsClaimed (flatten (.jobj [("a", .jarr [.jstr "(empty)", .jnull])])
          "root" true) := by
  have h₁ : infer_nulls (flatten (.jobj [("a", .jarr [.jstr "(empty)", .jnull])])
      "root" true)
      = [("root", "object", RowVal.none), ("a", "array", RowVal.none),
         ("a[0]", "string", RowVal.str "(empty)"),
         ("a[1]", "unknown", RowVal.str "(null)")] := by
    simp [flatten, flattenFields, flattenElems, natRepr, natDigitsN, digitChar,
      get_type_name, primValue, infer_nulls, recordKnown, alookup, orUnknown, sig, sigAux]
  have h₂ : inferNullsClaimed (flatten (.jobj [("a", .jarr [.jstr "(empty)", .jnull])])
      "root" true)
      = [("root", "object", RowVal.none), ("a", "array", RowVal.none),
         ("a[0]", "string", RowVal.str "(empty)"),
         ("a[1]", "string", RowVal.str "(null)")] := by
    simp [flatten, flattenFields, flattenElems, natRepr, natDigitsN, digitChar,
      get_type_name, primValue, inferNullsClaimed, firstTypeClaimed, recordableClaimed,
      List.find?, sig, sigAux]
  refine ⟨h₁, h₂, ?_⟩
  rw [h₁, h₂]
  simp

/-! ### C2 support: functional updates commute with navigation -/

theorem alookup_mapField (fields : List (String × JVal)) (s : String) (g : JVal → JVal) :
    ∀ c, alookup fields s = some c → alookup (mapField fields s g) s = some (g c) := by
  induction fields with
  | nil => intro c h; simp [alookup] at h
  | cons kv rest ih =>
    obtain ⟨k', v'⟩ := kv
    intro c h
    by_cases hk : k' = s
    · subst hk
      have h' : some v' = some c := by simpa [alookup] using h
      injection h' with h''
      subst h''
      simp [mapField, alookup]
    · simp only [alookup, if_neg hk] at h
      simp [mapField, hk, alookup, ih c h]

theorem listModifyNat_length (g : JVal → JVal) :
    ∀ (xs : List JVal) (n : Nat), (listModifyNat g xs n).length = xs.length := by
  intro xs
  induction xs with
  | nil => intro n; rfl
  | cons x rest ih =>
    intro n
    cases n with
    | zero => rfl
    | succ m => simp [listModifyNat, ih m]

theorem listModifyNat_getD (g : JVal → JVal) :
    ∀ (xs : List JVal) (n : Nat), n < xs.length →
      (listModifyNat g xs n).getD n JVal.jnull = g (xs.getD n JVal.jnull) := by
  intro xs
  induction xs with
  | nil => intro n h; simp at h
  | cons x rest ih =>
    intro n h
    cases n with
    | zero => rfl
    | succ m =>
      simp only [listModifyNat, List.getD_cons_succ]
      exact ih m (by simpa using h)

theorem normIdx_lt {i : Int} {n : Nat} (h : -(n : Int) ≤ i ∧ i < (n : Int)) :
    normIdx i n < n := by
  unfold normIdx
  split <;> omega

theorem listRemoveNat_length : ∀ (xs : List JVal) (n : Nat), n < xs.length →
    (listRemoveNat xs n).length = xs.length - 1 := by
  intro xs
  induction xs with
  | nil => intro n h; simp at h
  | cons x rest ih =>
    intro n h
    cases n with
    | zero => simp [listRemoveNat]
    | succ m =>
      simp only [listRemoveNat, List.length_cons]
      have hm : m < rest.length := by simpa using h
      rw [ih m hm]
      omega

theorem listInsertNat_length (v : JVal) : ∀ (xs : List JVal) (n : Nat),
    (listInsertNat v xs n).length = xs.length + 1 := by
  intro xs
  induction xs with
  | nil =>
    intro n
    cases n <;> rfl
  | cons x rest ih =>
    intro n
    cases n with
    | zero => rfl
    | succ m => simp [listInsertNat, ih m]

/-- Rewriting the node addressed by `pre` (with any function) leaves the walk
to `pre` succeeding, now ending at the rewritten node. -/
theorem navGo_modAtPath : ∀ (pre : List Seg) (pk0 pk1 : Option (JVal × Seg))
    (data : JVal) (pk : Option (JVal × Seg)) (node : JVal) (f : JVal → JVal),
    navGo pk0 data pre = .ok (pk, node) →
    ∃ pk', navGo pk1 (modAtPath data pre f) pre = .ok (pk', f node) := by
  intro pre
  induction pre with
  | nil =>
    intro pk0 pk1 data pk node f h
    have h' : Except.ok (ε := NavErr) (pk0, data) = Except.ok (pk, node) := h
    injection h' with h''
    injection h'' with h1 h2
    subst h2
    exact ⟨pk1, rfl⟩
  | cons seg rest ih =>
    intro pk0 pk1 data pk node f h
    cases seg with
    | key s =>
      cases data with
      | jobj fields =>
        simp only [navGo] at h
        cases hl : alookup fields s with
        | none => rw [hl] at h; exact absurd h (by simp)
        | some c =>
          rw [hl] at h
          have hmod : modAtPath (.jobj fields) (Seg.key s :: rest) f
              = .jobj (mapField fields s (fun x => modAtPath x rest f)) := rfl
          rw [hmod]
          simp only [navGo]
          rw [alookup_mapField fields s _ c hl]
          exact ih _ _ c pk node f h
      | jnull => simp [navGo] at h
      | jbool b => simp [navGo] at h
      | jint n => simp [navGo] at h
      | jnum q => simp [navGo] at h
      | jstr t => simp [navGo] at h
      | jarr xs => simp [navGo] at h
    | idx i =>
      cases data with
      | jarr xs =>
        simp only [navGo] at h
        by_cases hb : -(xs.length : Int) ≤ i ∧ i < (xs.length : Int)
        · rw [if_pos hb] at h
          have hmod : modAtPath (.jarr xs) (Seg.idx i :: rest) f
              = .jarr (listModifyNat (fun x => modAtPath x rest f) xs
                  (normIdx i xs.length)) := rfl
          rw [hmod]
          simp only [navGo]
          rw [listModifyNat_length]
          rw [if_pos hb]
          rw [listModifyNat_getD _ _ _ (normIdx_lt hb)]
          exact ih _ _ _ pk node f h
        · rw [if_neg hb] at h
          exact absurd h (by simp)
      | jnull => simp [navGo] at h
      | jbool b => simp [navGo] at h
      | jint n => simp [navGo] at h
      | jnum q => simp [navGo] at h
      | jstr t => simp [navGo] at h
      | jobj fields => simp [navGo] at h

theorem apply_del_concat (data : JVal) (pre : List Seg) (sg : Seg) :
    apply_del data (pre ++ [sg]) =
      match navigate data (pre ++ [sg]) with
      | .error e => .error (.nav e)
      | .ok _ => .ok (modAtPath data pre (fun parent => deleteChild parent sg)) := by
  have h1 : apply_del data (pre ++ [sg]) =
      match navigate data (pre ++ [sg]) with
      | .error e => .error (.nav e)
      | .ok _ => .ok (modAtPath data (pre ++ [sg]).dropLast
          (fun parent => deleteChild parent ((pre ++ [sg]).getLastD (Seg.idx 0)))) := by
    rcases List.exists_cons_of_ne_nil (show pre ++ [sg] ≠ [] by simp) with ⟨s0, ss, hcons⟩
    rw [hcons]
    rfl
  rw [h1, List.dropLast_concat, List.getLastD_concat]

theorem apply_before_concat (data : JVal) (pre : List Seg) (sg : Seg) (v : JVal) :
    apply_before data (pre ++ [sg]) v =
      match navigate data (pre ++ [sg]) with
      | .error e => .error (.nav e)
      | .ok (parentKey, _) =>
        match parentKey with
        | some (.jarr _, seg) => .ok (modAtPath data pre (fun parent =>
            match parent, seg with
            | .jarr ys, .idx i => .jarr (listInsertNat v ys (insertPos i ys.length))
            | p, _ => p))
        | _ => .error (.msg "'before' only works on array elements") := by
  have h1 : apply_before data (pre ++ [sg]) v =
      match navigate data (pre ++ [sg]) with
      | .error e => .error (.nav e)
      | .ok (parentKey, _) =>
        match parentKey with
        | some (.jarr _, seg) => .ok (modAtPath data (pre ++ [sg]).dropLast
            (fun parent =>
              match parent, seg with
              | .jarr ys, .idx i => .jarr (listInsertNat v ys (insertPos i ys.length))
              | p, _ => p))
        | _ => .error (.msg "'before' only works on array elements") := by
    rcases List.exists_cons_of_ne_nil (show pre ++ [sg] ≠ [] by simp) with ⟨s0, ss, hcons⟩
    rw [hcons]
    rfl
  rw [h1, List.dropLast_concat]

/-- C2 (amended): deleting the element at a valid index `i` of the array at
`pre` and inserting before the same path succeeds and restores the array's
original length — provided `i` is also a valid index of the array after the
deletion (`-(n-1) ≤ i < n-1`).  For the remaining valid indices (the last
element, or `i = -n`) the second step's navigation fails out-of-range, see the
counterexample. -/
theorem del_before_restores (data : JVal) (pre : List Seg) (i : Int) (v : JVal)
    (pk : Option (JVal × Seg)) (xs : List JVal)
    (hnav : navigate data pre = .ok (pk, .jarr xs))
    (hlo : -((xs.length : Int) - 1) ≤ i) (hhi : i < (xs.length : Int) - 1) :
    ∃ d₁ d₂ pk₂ ys,
      apply_del data (pre ++ [Seg.idx i]) = .ok d₁ ∧
      apply_before d₁ (pre ++ [Seg.idx i]) v = .ok d₂ ∧
      navigate d₂ pre = .ok (pk₂, .jarr ys) ∧
      ys.length = xs.length := by
  have hn1 : 1 ≤ xs.length := by omega
  have hb0 : -(xs.length : Int) ≤ i ∧ i < (xs.length : Int) := by omega
  have hnav1 : navigate data (pre ++ [Seg.idx i])
      = .ok (some (.jarr xs, .idx i), xs.getD (normIdx i xs.length) .jnull) := by
    unfold navigate at hnav ⊢
    rw [navGo_append, hnav]
    simp [navGo, hb0]
  -- step 1: delete
  have hdel : apply_del data (pre ++ [Seg.idx i])
      = .ok (modAtPath data pre (fun parent => deleteChild parent (Seg.idx i))) := by
    rw [apply_del_concat, hnav1]
  set d₁ := modAtPath data pre (fun parent => deleteChild parent (Seg.idx i)) with hd₁
  set xs' := listRemoveNat xs (normIdx i xs.length) with hxs'
  have hdelchild : deleteChild (.jarr xs) (Seg.idx i) = .jarr xs' := rfl
  obtain ⟨pk₁, hnavd₁⟩ := navGo_modAtPath pre Option.none Option.none data pk (.jarr xs)
    (fun parent => deleteChild parent (Seg.idx i)) hnav
  rw [hdelchild] at hnavd₁
  have hlen' : xs'.length = xs.length - 1 :=
    listRemoveNat_length xs (normIdx i xs.length) (normIdx_lt hb0)
  have hlen'' : (xs'.length : Int) = (xs.length : Int) - 1 := by
    rw [hlen']
    omega
  have hb1 : -(xs'.length : Int) ≤ i ∧ i < (xs'.length : Int) := by
    rw [hlen'']
    exact ⟨by omega, by omega⟩
  have hnavd₁' : navigate d₁ pre = .ok (pk₁, .jarr xs') := by
    rw [hd₁]
    exact hnavd₁
  have hnav2 : navigate d₁ (pre ++ [Seg.idx i])
      = .ok (some (.jarr xs', .idx i), xs'.getD (normIdx i xs'.length) .jnull) := by
    unfold navigate at hnavd₁' ⊢
    rw [navGo_append, hnavd₁']
    simp [navGo, hb1]
  -- step 2: insert before
  have hbef : apply_before d₁ (pre ++ [Seg.idx i]) v
      = .ok (modAtPath d₁ pre (fun parent =>
          match parent, Seg.idx i with
          | .jarr ys, .idx j => .jarr (listInsertNat v ys (insertPos j ys.length))
          | p, _ => p)) := by
    rw [apply_before_concat, hnav2]
  obtain ⟨pk₂, hnavd₂⟩ := navGo_modAtPath pre Option.none Option.none d₁ pk₁ (.jarr xs')
    (fun parent =>
      match parent, Seg.idx i with
      | .jarr ys, .idx j => .jarr (listInsertNat v ys (insertPos j ys.length))
      | p, _ => p) hnavd₁
  refine ⟨d₁, _, pk₂, listInsertNat v xs' (insertPos i xs'.length), hdel, hbef, hnavd₂, ?_⟩
  rw [listInsertNat_length]
  omega

/-- Witness for `del_before_restores` on the root-level array `[1, 2]` at
index 0. -/
theorem del_before_restores_witness :
    ∃ d₁ d₂ pk₂ ys,
      apply_del (.jarr [.jint 1, .jint 2]) [Seg.idx 0] = .ok d₁ ∧
      apply_before d₁ [Seg.idx 0] (.jint 9) = .ok d₂ ∧
      navigate d₂ [] = .ok (pk₂, .jarr ys) ∧
      ys.length = 2 := by
  have h := del_before_restores (.jarr [.jint 1, .jint 2]) [] 0 (.jint 9) Option.none
    [.jint 1, .jint 2] rfl (by simp) (by simp)
  simpa using h

/-- C2 counterexample: index 0 is a valid index of the one-element array `[1]`,
yet deleting it and then inserting before the same path fails — after the
deletion the array is empty and the navigation in `apply_before` reports index
0 out of range for length 0.  So del-then-before does not succeed for every
valid element index. -/
theorem del_before_last_counterexample :
    apply_del (.jarr [.jint 1]) [Seg.idx 0] = .ok (.jarr []) ∧
    apply_before (.jarr []) [Seg.idx 0] (.jint 9)
      = .error (.nav (.idxOutOfRange 0 0)) := by
  constructor
  · simp [apply_del, navigate, navGo, modAtPath, updateChild, deleteChild,
      listRemoveNat, normIdx]
  · simp [apply_before, navigate, navGo]

/-! ### C10: parsed segments are non-negative indices and nonempty keys -/

theorem parseSegs_inv : ∀ (l : List Char) (segs : List Seg), parseSegs l = .ok segs →
    (∀ i : Int, Seg.idx i ∈ segs → 0 ≤ i) ∧
    (∀ k : String, Seg.key k ∈ segs → k ≠ "") := by
  intro l
  induction l using parseSegs.induct with
  | case1 =>
    intro segs h
    have h' : Except.ok (ε := String) ([] : List Seg) = Except.ok segs := by
      simpa [parseSegs] using h
    injection h' with h''
    subst h''
    constructor <;> intro x hx <;> simp at hx
  | case2 rest h1 =>
    intro segs h
    simp only [parseSegs, if_pos rfl, if_pos h1] at h
    simp at h
  | case3 rest h1 h2 segs1 hok ih =>
    intro segs h
    simp only [parseSegs, if_pos rfl, if_neg h1, if_pos h2, hok] at h
    injection h with h'
    subst h'
    obtain ⟨ihIdx, ihKey⟩ := ih segs1 hok
    constructor
    · intro i hi
      rcases List.mem_cons.1 hi with hi | hi
      · injection hi with h''
        subst h''
        exact Int.natCast_nonneg _
      · exact ihIdx i hi
    · intro k hk
      rcases List.mem_cons.1 hk with hk | hk
      · exact absurd hk (by simp)
      · exact ihKey k hk
  | case4 rest h1 h2 e herr ih =>
    intro segs h
    simp only [parseSegs, if_pos rfl, if_neg h1, if_pos h2, herr] at h
    simp at h
  | case5 rest h1 h2 =>
    intro segs h
    simp only [parseSegs, if_pos rfl, if_neg h1, if_neg h2] at h
    simp at h
  | case6 c rest hc hemp =>
    intro segs h
    simp only [parseSegs, if_neg hc] at h
    rw [dif_pos hemp] at h
    exact absurd h (by simp)
  | case7 c rest hc hemp segs1 hok ih =>
    intro segs h
    simp only [parseSegs, if_neg hc] at h
    rw [dif_neg hemp, hok] at h
    injection h with h'
    subst h'
    obtain ⟨ihIdx, ihKey⟩ := ih segs1 hok
    constructor
    · intro i hi
      rcases List.mem_cons.1 hi with hi | hi
      · exact absurd hi (by simp)
      · exact ihIdx i hi
    · intro k hk
      rcases List.mem_cons.1 hk with hk | hk
      · injection hk with h''
        subst h''
        intro hcon
        have hdata := congrArg String.data hcon
        cases hkk : (c :: rest).takeWhile notDotLB with
        | nil => exact hemp hkk
        | cons a as =>
          rw [hkk] at hdata
          simp at hdata
      · exact ihKey k hk
  | case8 c rest hc hemp e herr ih =>
    intro segs h
    simp only [parseSegs, if_neg hc] at h
    rw [dif_neg hemp, herr] at h
    exact absurd h (by simp)

/-- C10: every path string accepted by `parse_path` yields only non-negative
integer segments (indices come from digit runs) and nonempty string keys;
consequently, for such segments the navigator's negative-index normalization
is the identity (`normIdx i n = i.toNat`), i.e. the negative-index branch is
unreachable through parsed paths. -/
theorem parse_path_segments (s : String) (segs : List Seg)
    (h : parse_path s = .ok segs) :
    (∀ i : Int, Seg.idx i ∈ segs → 0 ≤ i) ∧
    (∀ k : String, Seg.key k ∈ segs → k ≠ "") ∧
    (∀ i : Int, Seg.idx i ∈ segs → ∀ n : Nat, normIdx i n = i.toNat) := by
  have hmain : (∀ i : Int, Seg.idx i ∈ segs → 0 ≤ i) ∧
      (∀ k : String, Seg.key k ∈ segs → k ≠ "") := by
    unfold parse_path at h
    dsimp only [] at h
    split at h
    · have h' : Except.ok (ε := String) ([] : List Seg) = Except.ok segs := h
      injection h' with h''
      subst h''
      constructor <;> intro x hx <;> simp at hx
    · split at h
      · exact parseSegs_inv _ _ h
      · split at h
        · exact parseSegs_inv _ _ h
        · exact parseSegs_inv _ _ h
  refine ⟨hmain.1, hmain.2, ?_⟩
  intro i hi n
  have hpos := hmain.1 i hi
  unfold normIdx
  rw [if_neg (by omega)]

/-- Witness for `parse_path_segments` at `users[0].name`. -/
theorem parse_path_segments_witness :
    (0 : Int) ≤ 0 ∧ ("users" : String) ≠ "" ∧ normIdx 0 5 = (0 : Int).toNat := by
  have h := parse_path_segments "users[0].name"
    [Seg.key "users", Seg.idx 0, Seg.key "name"]
    (by simp [parse_path, stripWs, pySpace, listStarts, parseSegs, skipDot, notRB,
      notDotLB, digitsVal])
  exact ⟨h.1 0 (by simp), h.2.1 "users" (by simp), h.2.2 0 (by simp) 5⟩

end JsTool
